import Mathlib

/-!
# search-trees: AVL tree and red-black tree

A shallow embedding of `src/avl-tree.hpp` and `src/rb-tree.hpp`.

* A pointer to a node is a value of the node type; `nil` is `nullptr`.
* A member function is a function of the node it is called on. Where the C++
  dereferences a pointer, the embedding matches on it and answers `none`
  when the pointer is null, so `none` always means "null dereference".
* The key type `T` with its `<`, `>`, `==`, `!=` is a type with a decidable
  linear order.
* `AvlNode::height` is an `int8_t` in the source. It is a natural number here;
  the two agree as long as no height exceeds 127.
* A red-black node carries a `parent` pointer. A node is therefore given as
  the subtree below it together with the chain of its ancestors (nearest
  first), each ancestor recorded with its key, colour, the side on which the
  chain continues downwards, and its other child. Following `parent` is taking
  the head of the chain; `x == x->parent->left` is the recorded side.
-/

namespace SearchTrees

/-! ## AVL tree (`src/avl-tree.hpp`) -/

/-- An `AvlNode<T>*`: `nil` is `nullptr`, `node data height left right` a node. -/
inductive AvlNode (α : Type) where
  | nil : AvlNode α
  | node (data : α) (height : Nat) (left right : AvlNode α) : AvlNode α
  deriving DecidableEq, Repr

namespace AvlNode

variable {α : Type}

/-- The expression `p ? p->height : 0`. -/
def heightOf : AvlNode α → Nat
  | nil => 0
  | node _ h _ _ => h

/-- The constructor `AvlNode<T>(data)`: a leaf of height 1. -/
def mk (x : α) : AvlNode α := node x 1 nil nil

/-- The member `fixHeight`. -/
def fixHeight : AvlNode α → Option (AvlNode α)
  | nil => none
  | node d _ l r => some (node d ((if heightOf l > heightOf r then heightOf l else heightOf r) + 1) l r)

/-- The member `getBalancingFactor`. -/
def getBalancingFactor : AvlNode α → Option Int
  | nil => none
  | node _ _ l r => some ((heightOf r : Int) - (heightOf l : Int))

/-- The member `rotateLeft`: `p = right; right = p->left; p->left = this;
fixHeight(); p->fixHeight(); return p`. -/
def rotateLeft : AvlNode α → Option (AvlNode α)
  | node d h l (node pd ph pl pr) =>
    (fixHeight (node d h l pl)).bind fun t => fixHeight (node pd ph t pr)
  | _ => none

/-- The member `rotateRight`, the mirror image of `rotateLeft`. -/
def rotateRight : AvlNode α → Option (AvlNode α)
  | node d h (node qd qh ql qr) r =>
    (fixHeight (node d h qr r)).bind fun t => fixHeight (node qd qh ql t)
  | _ => none

/-- The member `balance`. -/
def balance (t : AvlNode α) : Option (AvlNode α) :=
  (fixHeight t).bind fun t1 =>
  match t1 with
  | nil => none
  | node d h l r =>
    (getBalancingFactor (node d h l r)).bind fun bf =>
    if bf = 2 then
      (getBalancingFactor r).bind fun bfr =>
      if bfr < 0 then
        (rotateRight r).bind fun r1 => rotateLeft (node d h l r1)
      else rotateLeft (node d h l r)
    else if bf = -2 then
      (getBalancingFactor l).bind fun bfl =>
      if bfl > 0 then
        (rotateLeft l).bind fun l1 => rotateRight (node d h l1 r)
      else rotateRight (node d h l r)
    else some (node d h l r)

/-- The member `insert`; the result is the pair `(new subtree root, inserted)`. -/
def insert [LinearOrder α] (x : α) : AvlNode α → Option (AvlNode α × Bool)
  | nil => none
  | node d h l r =>
    if x < d then
      match l with
      | nil => (fixHeight (node d h (mk x) r)).map fun t => (t, true)
      | _ =>
        (insert x l).bind fun res =>
        (balance (node d h res.1 r)).map fun t => (t, res.2)
    else if d < x then
      match r with
      | nil => (fixHeight (node d h l (mk x))).map fun t => (t, true)
      | _ =>
        (insert x r).bind fun res =>
        (balance (node d h l res.1)).map fun t => (t, res.2)
    else some (node d h l r, false)

/-- The member `search`: the loop descends from `this`; arriving at a null
child it returns `false`. -/
def search [LinearOrder α] (x : α) : AvlNode α → Bool
  | nil => false
  | node d _ l r =>
    if x = d then true
    else if x < d then search x l
    else search x r

/-- The number of nodes of a subtree. -/
def size : AvlNode α → Nat
  | nil => 0
  | node _ _ l r => size l + size r + 1

/-- The true height of a subtree: absent = 0, leaf = 1. -/
def realHeight : AvlNode α → Nat
  | nil => 0
  | node _ _ l r => max (realHeight l) (realHeight r) + 1

/-- The keys of a subtree, in order. -/
def toList : AvlNode α → List α
  | nil => []
  | node d _ l r => toList l ++ d :: toList r

/-- Every node has `|h(left) - h(right)| <= 1` for the true height `h`. -/
def Balanced : AvlNode α → Prop
  | nil => True
  | node _ _ l r =>
    realHeight l ≤ realHeight r + 1 ∧ realHeight r ≤ realHeight l + 1 ∧ Balanced l ∧ Balanced r

/-- Every stored height is the true height of its subtree. -/
def HeightsExact : AvlNode α → Prop
  | nil => True
  | node _ h l r => h = max (realHeight l) (realHeight r) + 1 ∧ HeightsExact l ∧ HeightsExact r

/-- Search-tree order: left keys below the node key, right keys above. -/
def Ordered [LinearOrder α] : AvlNode α → Prop
  | nil => True
  | node d _ l r =>
    (∀ y ∈ toList l, y < d) ∧ (∀ y ∈ toList r, d < y) ∧ Ordered l ∧ Ordered r

/-- Every stored height is one more than the larger of the stored heights of
the two children, an absent child counting as 0. -/
def StoredHeightsOK : AvlNode α → Prop
  | nil => True
  | node _ h l r =>
    h = max (heightOf l) (heightOf r) + 1 ∧ StoredHeightsOK l ∧ StoredHeightsOK r

/-- The invariant of the AVL tree: search-tree order, exact stored heights, and
the balance condition at every node. -/
def Inv [LinearOrder α] (t : AvlNode α) : Prop :=
  Ordered t ∧ HeightsExact t ∧ Balanced t

end AvlNode

/-- The class `AvlTree<T>`: its only field is `root`. -/
abbrev AvlTree (α : Type) := AvlNode α

namespace AvlTree

variable {α : Type} [LinearOrder α]

/-- The member `AvlTree::insert`: the new root and the returned flag. -/
def insert (root : AvlTree α) (x : α) : Option (AvlTree α × Bool) :=
  match root with
  | AvlNode.nil => some (AvlNode.mk x, true)
  | AvlNode.node d h l r =>
    if x ≠ d then AvlNode.insert x (AvlNode.node d h l r)
    else some (AvlNode.node d h l r, false)

/-- The member `AvlTree::search`. -/
def search (root : AvlTree α) (x : α) : Bool :=
  match root with
  | AvlNode.nil => false
  | AvlNode.node d h l r => AvlNode.search x (AvlNode.node d h l r)

/-- The tree after `insert` has been called with each key of `ks` in turn,
starting from the tree `root`. -/
def insertFrom (root : AvlTree α) : List α → Option (AvlTree α)
  | [] => some root
  | k :: ks => (insert root k).bind fun res => insertFrom res.1 ks

/-- The tree built from the empty tree by inserting the keys `ks` in turn. -/
def insertAll (ks : List α) : Option (AvlTree α) := insertFrom AvlNode.nil ks

end AvlTree

/-! ## Red-black tree (`src/rb-tree.hpp`) -/

/-- A `RedBlackNode<T>*` as seen from above: `nil` is `nullptr`,
`node data isRed left right` a node with the subtrees below it. -/
inductive RedBlackNode (α : Type) where
  | nil : RedBlackNode α
  | node (data : α) (isRed : Bool) (left right : RedBlackNode α) : RedBlackNode α
  deriving DecidableEq, Repr

/-- One `parent` link: the ancestor's key and colour, whether the node below
is its `left` child, and its other child. -/
structure Frame (α : Type) where
  data : α
  isRed : Bool
  isLeft : Bool
  other : RedBlackNode α
  deriving DecidableEq, Repr

namespace Frame

variable {α : Type}

/-- The ancestor as a node again, with `t` as the child on the recorded side. -/
def plug (f : Frame α) (t : RedBlackNode α) : RedBlackNode α :=
  if f.isLeft then RedBlackNode.node f.data f.isRed t f.other
  else RedBlackNode.node f.data f.isRed f.other t

end Frame

namespace RedBlackNode

variable {α : Type}

/-- The constructor `RedBlackNode<T>(data, isRed, parent)`, the parent being
kept in the chain of ancestors. -/
def mk (x : α) (isRed : Bool) : RedBlackNode α := node x isRed nil nil

/-- The assignment `n->isRed = c`. -/
def setIsRed (c : Bool) : RedBlackNode α → Option (RedBlackNode α)
  | nil => none
  | node d _ l r => some (node d c l r)

/-- The member `rotateLeft`; the relinking of parent pointers is implicit. -/
def rotateLeft : RedBlackNode α → Option (RedBlackNode α)
  | node d c l (node pd pc pl pr) => some (node pd pc (node d c l pl) pr)
  | _ => none

/-- The member `rotateRight`; the relinking of parent pointers is implicit. -/
def rotateRight : RedBlackNode α → Option (RedBlackNode α)
  | node d c (node qd qc ql qr) r => some (node qd qc ql (node d c qr r))
  | _ => none

/-- The loop `while (newRoot->parent) newRoot = newRoot->parent`, started at
the node `t` whose ancestors are `path`: the root, with the whole tree below it. -/
def findRoot (t : RedBlackNode α) : List (Frame α) → RedBlackNode α
  | [] => t
  | f :: up => findRoot (f.plug t) up

/-- The test `!s || !s->isRed`. -/
def blackOrAbsent : RedBlackNode α → Bool
  | nil => true
  | node _ c _ _ => !c

/-- The member `balance`, called on the node `k` whose ancestors are the
second argument (`p` first, then `g`, then `gParent`). The result is the
returned root pointer. -/
def balance (k : RedBlackNode α) : List (Frame α) → Option (RedBlackNode α)
  | [] => setIsRed false k
  | p :: rest =>
    match k with
    | nil => none
    | node kd kc kl kr =>
      if p.isRed then
        match rest with
        | [] => none
        | g :: up =>
          let isKLeft := p.isLeft
          let isPLeft := g.isLeft
          let s := g.other
          if blackOrAbsent s then
            -- g->isRed = true; if (isKLeft) p->isRed = false;
            let p1 : Frame α := if isKLeft then { p with isRed := false } else p
            if isPLeft then
              let gLeft : Option (RedBlackNode α) :=
                if !isKLeft then
                  rotateLeft (p1.plug (node kd false kl kr))
                else
                  some (({ p1 with isRed := false } : Frame α).plug (node kd kc kl kr))
              gLeft.bind fun gl =>
              (rotateRight (node g.data true gl s)).bind fun top =>
              match up with
              | [] => some top
              | gParent :: up1 => some (findRoot (gParent.plug top) up1)
            else
              let gRight : Option (RedBlackNode α) :=
                if isKLeft then
                  rotateRight (p1.plug (node kd false kl kr))
                else
                  some (({ p1 with isRed := false } : Frame α).plug (node kd kc kl kr))
              gRight.bind fun gr =>
              (rotateLeft (node g.data true s gr)).bind fun top =>
              match up with
              | [] => some top
              | gParent :: up1 => some (findRoot (gParent.plug top) up1)
          else
            (setIsRed false s).bind fun s1 =>
            let p1 : Frame α := { p with isRed := false }
            let g1 : Frame α := { g with isRed := true, other := s1 }
            balance (g1.plug (p1.plug (node kd kc kl kr))) up
      else
        some (findRoot (p.plug (node kd kc kl kr)) rest)

/-- The result of the member `insert`: a null dereference on the way, the
null pointer (nothing inserted), or the returned root pointer. -/
abbrev InsertResult (α : Type) := Option (Option (RedBlackNode α))

/-- The member `insert`, called on a node whose ancestors are `path`. -/
def insert [LinearOrder α] (x : α) : RedBlackNode α → List (Frame α) → InsertResult α
  | nil, _ => none
  | node d c l r, path =>
    if x < d then
      match l with
      | nil => (balance (mk x true) (⟨d, c, true, r⟩ :: path)).map some
      | _ => insert x l (⟨d, c, true, r⟩ :: path)
    else if d < x then
      match r with
      | nil => (balance (mk x true) (⟨d, c, false, l⟩ :: path)).map some
      | _ => insert x r (⟨d, c, false, l⟩ :: path)
    else some none

/-- The member `search`: the loop descends from `this`; arriving at a null
child it returns `false`. -/
def search [LinearOrder α] (x : α) : RedBlackNode α → Bool
  | nil => false
  | node d _ l r =>
    if x = d then true
    else if x < d then search x l
    else search x r

/-- The number of nodes of a subtree. -/
def size : RedBlackNode α → Nat
  | nil => 0
  | node _ _ l r => size l + size r + 1

/-- The number of nodes on the longest path downwards: absent = 0, leaf = 1. -/
def height : RedBlackNode α → Nat
  | nil => 0
  | node _ _ l r => max (height l) (height r) + 1

/-- The keys of a subtree, in order. -/
def toList : RedBlackNode α → List α
  | nil => []
  | node d _ l r => toList l ++ d :: toList r

/-- The colour of the node a pointer refers to; an absent node counts as black. -/
def red : RedBlackNode α → Bool
  | nil => false
  | node _ c _ _ => c

/-- No red node of the subtree has a red child. -/
def NoRedRed : RedBlackNode α → Prop
  | nil => True
  | node _ c l r => (c = true → red l = false ∧ red r = false) ∧ NoRedRed l ∧ NoRedRed r

/-- The numbers of black nodes on the paths from the pointer down to an absent
child (the node itself counted), one number per path. -/
def blackCounts : RedBlackNode α → List Nat
  | nil => [0]
  | node _ c l r => (blackCounts l ++ blackCounts r).map fun n => if c then n else n + 1

/-- At every node of the subtree, all paths down to an absent child contain the
same number of black nodes. -/
def BlackBalanced : RedBlackNode α → Prop
  | nil => True
  | node d c l r =>
    (∀ m ∈ blackCounts (node d c l r), ∀ n ∈ blackCounts (node d c l r), m = n) ∧
      BlackBalanced l ∧ BlackBalanced r

/-- The keys of the whole tree that come before the keys of the subtree whose
ancestors are the given chain. -/
def keysBefore : List (Frame α) → List α
  | [] => []
  | f :: up => keysBefore up ++ (if f.isLeft then [] else toList f.other ++ [f.data])

/-- The keys of the whole tree that come after the keys of the subtree whose
ancestors are the given chain. -/
def keysAfter : List (Frame α) → List α
  | [] => []
  | f :: up => (if f.isLeft then f.data :: toList f.other else []) ++ keysAfter up

/-- The chain of ancestors is not empty and the nearest ancestor is black. -/
def ParentBlack : List (Frame α) → Prop
  | [] => False
  | f :: _ => f.isRed = false

/-- The colour condition on a chain of ancestors: no red ancestor has a red
child or a red parent or is the root, and the other subtrees have no red node
with a red child. The edge from the nearest ancestor down is left out. -/
def PathOK : List (Frame α) → Prop
  | [] => True
  | f :: up =>
    NoRedRed f.other ∧ (f.isRed = true → red f.other = false ∧ ParentBlack up) ∧ PathOK up

/-- Search-tree order: left keys below the node key, right keys above. -/
def Ordered [LinearOrder α] : RedBlackNode α → Prop
  | nil => True
  | node d _ l r =>
    (∀ y ∈ toList l, y < d) ∧ (∀ y ∈ toList r, d < y) ∧ Ordered l ∧ Ordered r

/-- The mirror image of a tree under a relabelling `f` of the keys: the two
children swapped at every node, every key relabelled, every colour kept. -/
def mirrorBy {β : Type} (f : α → β) : RedBlackNode α → RedBlackNode β
  | nil => nil
  | node d c l r => node (f d) c (mirrorBy f r) (mirrorBy f l)

/-- The mirror image of a tree of integer keys: the two children swapped at
every node, every key negated, every colour kept. -/
def mirror (t : RedBlackNode Int) : RedBlackNode Int := mirrorBy (fun d => -d) t

/-- The invariant of the red-black tree that the code keeps: the keys are in
strictly increasing order, the root is black and no red node has a red child. -/
def Inv [LinearOrder α] (t : RedBlackNode α) : Prop :=
  (toList t).Pairwise (· < ·) ∧ red t = false ∧ NoRedRed t

end RedBlackNode

/-- The class `RedBlackTree<T>`: its only field is `root`. -/
abbrev RedBlackTree (α : Type) := RedBlackNode α

namespace RedBlackTree

variable {α : Type} [LinearOrder α]

/-- The member `RedBlackTree::insert`: the new root and the returned flag. -/
def insert (root : RedBlackTree α) (x : α) : Option (RedBlackTree α × Bool) :=
  match root with
  | RedBlackNode.nil => some (RedBlackNode.mk x false, true)
  | RedBlackNode.node d c l r =>
    if x ≠ d then
      (RedBlackNode.insert x (RedBlackNode.node d c l r) []).map fun res =>
        match res with
        | some newRoot => (newRoot, true)
        | none => (RedBlackNode.node d c l r, false)
    else some (RedBlackNode.node d c l r, false)

/-- The member `RedBlackTree::search`. -/
def search (root : RedBlackTree α) (x : α) : Bool :=
  match root with
  | RedBlackNode.nil => false
  | RedBlackNode.node d c l r => RedBlackNode.search x (RedBlackNode.node d c l r)

/-- The tree after `insert` has been called with each key of `ks` in turn,
starting from the tree `root`. -/
def insertFrom (root : RedBlackTree α) : List α → Option (RedBlackTree α)
  | [] => some root
  | k :: ks => (insert root k).bind fun res => insertFrom res.1 ks

/-- The tree built from the empty tree by inserting the keys `ks` in turn. -/
def insertAll (ks : List α) : Option (RedBlackTree α) := insertFrom RedBlackNode.nil ks

end RedBlackTree

end SearchTrees

/-! ## The AVL tree: lemmas -/

namespace SearchTrees
namespace AvlNode
variable {α : Type}

theorem avl_fixHeight_node (d : α) (h : Nat) (l r : AvlNode α) :
    fixHeight (node d h l r) = some (node d (max (heightOf l) (heightOf r) + 1) l r) := by
  simp only [fixHeight]
  congr 2
  split_ifs with hc
  · omega
  · omega

theorem avl_heightOf_nil : heightOf (nil : AvlNode α) = 0 := rfl

theorem avl_heightOf_node (d : α) (h : Nat) (l r : AvlNode α) :
    heightOf (node d h l r) = h := rfl

theorem avl_heightOf_eq_realHeight {t : AvlNode α} (ht : HeightsExact t) :
    heightOf t = realHeight t := by
  cases t with
  | nil => rfl
  | node d h l r => exact ht.1

theorem avl_balance_spec (d : α) (h : Nat) (l r : AvlNode α)
    (hl : HeightsExact l) (hr : HeightsExact r) (bl : Balanced l) (br : Balanced r)
    (h1 : realHeight l ≤ realHeight r + 2) (h2 : realHeight r ≤ realHeight l + 2) :
    ∃ t, balance (node d h l r) = some t ∧ HeightsExact t ∧ Balanced t ∧
      toList t = toList l ++ d :: toList r ∧ size t = size l + size r + 1 ∧
      max (realHeight l) (realHeight r) ≤ realHeight t ∧
      realHeight t ≤ max (realHeight l) (realHeight r) + 1 ∧
      (realHeight l ≤ realHeight r + 1 → realHeight r ≤ realHeight l + 1 →
        t = node d (max (realHeight l) (realHeight r) + 1) l r) := by
  simp only [balance, avl_fixHeight_node, Option.some_bind, getBalancingFactor,
    avl_heightOf_eq_realHeight hl, avl_heightOf_eq_realHeight hr]
  by_cases c2 : (realHeight r : Int) - (realHeight l : Int) = 2
  · simp only [c2, if_true]
    cases r with
    | nil => simp [realHeight] at c2 ; omega
    | node pd ph pl pr =>
      obtain ⟨hph, hpl, hpr⟩ := hr
      obtain ⟨b1, b2, bpl, bpr⟩ := br
      simp only [getBalancingFactor, Option.some_bind, avl_heightOf_eq_realHeight hpl,
        avl_heightOf_eq_realHeight hpr]
      simp only [realHeight] at c2 h1 h2 ⊢
      by_cases c3 : (realHeight pr : Int) - (realHeight pl : Int) < 0
      · simp only [c3, if_true]
        cases pl with
        | nil => simp [realHeight] at c3 ; omega
        | node qd qh ql qr =>
          obtain ⟨hqh, hql, hqr⟩ := hpl
          obtain ⟨b3, b4, bql, bqr⟩ := bpl
          simp only [realHeight] at c2 c3 h1 h2 b1 b2 ⊢
          simp only [rotateRight, rotateLeft, avl_fixHeight_node, Option.some_bind, avl_heightOf_node,
            avl_heightOf_eq_realHeight hl, avl_heightOf_eq_realHeight hql, avl_heightOf_eq_realHeight hqr,
            avl_heightOf_eq_realHeight hpr]
          refine ⟨_, rfl, ?_, ?_, ?_, ?_, ?_, ?_, ?_⟩
          · simp only [HeightsExact, realHeight]
            exact ⟨trivial, ⟨trivial, hl, hql⟩, ⟨trivial, hqr, hpr⟩⟩
          · simp only [Balanced, realHeight]
            refine ⟨?_, ?_, ⟨?_, ?_, bl, bql⟩, ⟨?_, ?_, bqr, bpr⟩⟩ <;> omega
          · simp [toList]
          · simp only [size]; omega
          · simp only [realHeight]; omega
          · simp only [realHeight]; omega
          · intro e1 e2; omega
      · simp only [c3, if_false]
        simp only [rotateLeft, avl_fixHeight_node, Option.some_bind, avl_heightOf_node,
          avl_heightOf_eq_realHeight hl, avl_heightOf_eq_realHeight hpl, avl_heightOf_eq_realHeight hpr]
        refine ⟨_, rfl, ?_, ?_, ?_, ?_, ?_, ?_, ?_⟩
        · simp only [HeightsExact, realHeight]
          exact ⟨trivial, ⟨trivial, hl, hpl⟩, hpr⟩
        · simp only [Balanced, realHeight]
          refine ⟨?_, ?_, ⟨?_, ?_, bl, bpl⟩, bpr⟩ <;> omega
        · simp [toList]
        · simp only [size]; omega
        · simp only [realHeight]; omega
        · simp only [realHeight]; omega
        · intro e1 e2; omega
  · simp only [c2, if_false]
    by_cases c4 : (realHeight r : Int) - (realHeight l : Int) = -2
    · simp only [c4, if_true]
      cases l with
      | nil => simp [realHeight] at c4
      | node qd qh ql qr =>
        obtain ⟨hqh, hql, hqr⟩ := hl
        obtain ⟨b1, b2, bql, bqr⟩ := bl
        simp only [getBalancingFactor, Option.some_bind, avl_heightOf_eq_realHeight hql,
          avl_heightOf_eq_realHeight hqr]
        simp only [realHeight] at c4 h1 h2 ⊢
        by_cases c5 : (realHeight qr : Int) - (realHeight ql : Int) > 0
        · simp only [c5, if_true]
          cases qr with
          | nil => simp [realHeight] at c5 ; omega
          | node pd ph pl pr =>
            obtain ⟨hph, hpl, hpr⟩ := hqr
            obtain ⟨b3, b4, bpl, bpr⟩ := bqr
            simp only [realHeight] at c4 c5 h1 h2 b1 b2 ⊢
            simp only [rotateRight, rotateLeft, avl_fixHeight_node, Option.some_bind, avl_heightOf_node,
              avl_heightOf_eq_realHeight hr, avl_heightOf_eq_realHeight hql, avl_heightOf_eq_realHeight hpl,
              avl_heightOf_eq_realHeight hpr]
            refine ⟨_, rfl, ?_, ?_, ?_, ?_, ?_, ?_, ?_⟩
            · simp only [HeightsExact, realHeight]
              exact ⟨trivial, ⟨trivial, hql, hpl⟩, ⟨trivial, hpr, hr⟩⟩
            · simp only [Balanced, realHeight]
              refine ⟨?_, ?_, ⟨?_, ?_, bql, bpl⟩, ⟨?_, ?_, bpr, br⟩⟩ <;> omega
            · simp [toList]
            · simp only [size]; omega
            · simp only [realHeight]; omega
            · simp only [realHeight]; omega
            · intro e1 e2; omega
        · simp only [c5, if_false]
          simp only [rotateRight, avl_fixHeight_node, Option.some_bind, avl_heightOf_node,
            avl_heightOf_eq_realHeight hr, avl_heightOf_eq_realHeight hql, avl_heightOf_eq_realHeight hqr]
          refine ⟨_, rfl, ?_, ?_, ?_, ?_, ?_, ?_, ?_⟩
          · simp only [HeightsExact, realHeight]
            exact ⟨trivial, hql, ⟨trivial, hqr, hr⟩⟩
          · simp only [Balanced, realHeight]
            refine ⟨?_, ?_, bql, ⟨?_, ?_, bqr, br⟩⟩ <;> omega
          · simp [toList]
          · simp only [size]; omega
          · simp only [realHeight]; omega
          · simp only [realHeight]; omega
          · intro e1 e2; omega
    · simp only [c4, if_false]
      refine ⟨_, rfl, ?_, ?_, ?_, ?_, ?_, ?_, ?_⟩
      · exact ⟨rfl, hl, hr⟩
      · exact ⟨by omega, by omega, bl, br⟩
      · rfl
      · rfl
      · simp only [realHeight]; omega
      · simp only [realHeight]; omega
      · intro e1 e2; rfl


theorem avl_ordered_iff_pairwise [LinearOrder α] (t : AvlNode α) :
    Ordered t ↔ (toList t).Pairwise (· < ·) := by
  induction t with
  | nil => simp [Ordered, toList]
  | node d h l r ihl ihr =>
    simp only [Ordered, toList, List.pairwise_append, List.pairwise_cons, ihl, ihr,
      List.mem_cons]
    constructor
    · rintro ⟨h1, h2, h3, h4⟩
      refine ⟨h3, ⟨h2, h4⟩, fun a ha b hb => ?_⟩
      rcases hb with rfl | hb
      · exact h1 a ha
      · exact lt_trans (h1 a ha) (h2 b hb)
    · rintro ⟨h3, ⟨h2, h4⟩, h5⟩
      exact ⟨fun y hy => h5 y hy d (Or.inl rfl), h2, h3, h4⟩

theorem avl_search_iff_mem [LinearOrder α] (x : α) (t : AvlNode α) (ht : Ordered t) :
    search x t = true ↔ x ∈ toList t := by
  induction t with
  | nil => simp [search, toList]
  | node d h l r ihl ihr =>
    obtain ⟨h1, h2, h3, h4⟩ := ht
    simp only [search, toList, List.mem_append, List.mem_cons]
    by_cases e : x = d
    · simp [e]
    · by_cases c : x < d
      · simp only [e, c, if_true, if_false, ihl h3, false_or]
        constructor
        · exact Or.inl
        · rintro (hx | hx)
          · exact hx
          · exact absurd (h2 x hx) (not_lt.mpr c.le)
      · simp only [e, c, if_false, ihr h4, false_or]
        constructor
        · exact Or.inr
        · rintro (hx | hx)
          · exact absurd (h1 x hx) c
          · exact hx

theorem avl_insert_lt_nil [LinearOrder α] {x d : α} (c : x < d) (h : Nat) (r : AvlNode α) :
    insert x (node d h nil r) = (fixHeight (node d h (mk x) r)).map fun t => (t, true) := by
  conv_lhs => unfold insert
  simp only [c, if_true]

theorem avl_insert_lt_node [LinearOrder α] {x d : α} (c : x < d) (h : Nat) {l : AvlNode α}
    (hl : l ≠ nil) (r : AvlNode α) :
    insert x (node d h l r) =
      (insert x l).bind fun res => (balance (node d h res.1 r)).map fun t => (t, res.2) := by
  cases l with
  | nil => exact absurd rfl hl
  | node ld lh ll lr =>
    conv_lhs => unfold insert
    simp only [c, if_true]

theorem avl_insert_gt_nil [LinearOrder α] {x d : α} (c : d < x) (h : Nat) (l : AvlNode α) :
    insert x (node d h l nil) = (fixHeight (node d h l (mk x))).map fun t => (t, true) := by
  conv_lhs => unfold insert
  simp only [not_lt.mpr c.le, c, if_true, if_false]

theorem avl_insert_gt_node [LinearOrder α] {x d : α} (c : d < x) (h : Nat) (l : AvlNode α)
    {r : AvlNode α} (hr : r ≠ nil) :
    insert x (node d h l r) =
      (insert x r).bind fun res => (balance (node d h l res.1)).map fun t => (t, res.2) := by
  cases r with
  | nil => exact absurd rfl hr
  | node rd rh rl rr =>
    conv_lhs => unfold insert
    simp only [not_lt.mpr c.le, c, if_true, if_false]

theorem avl_insert_eq [LinearOrder α] (x : α) (h : Nat) (l r : AvlNode α) :
    insert x (node x h l r) = some (node x h l r, false) := by
  conv_lhs => unfold insert
  simp only [lt_irrefl, if_false]

theorem avl_insert_spec [LinearOrder α] (x : α) (t : AvlNode α) (hne : t ≠ nil)
    (ho : Ordered t) (he : HeightsExact t) (hb : Balanced t) :
    ∃ t1 b, insert x t = some (t1, b) ∧ Ordered t1 ∧ HeightsExact t1 ∧ Balanced t1 ∧
      (∀ y, y ∈ toList t1 ↔ y = x ∨ y ∈ toList t) ∧
      (b = true ↔ x ∉ toList t) ∧
      realHeight t ≤ realHeight t1 ∧ realHeight t1 ≤ realHeight t + 1 ∧
      size t1 = size t + (if b then 1 else 0) ∧
      (b = false → t1 = t) := by
  induction t with
  | nil => exact absurd rfl hne
  | node d h l r ihl ihr =>
    obtain ⟨o1, o2, o3, o4⟩ := ho
    obtain ⟨e1, e2, e3⟩ := he
    obtain ⟨b1, b2, b3, b4⟩ := hb
    by_cases c : x < d
    · have hxr : x ∉ toList r := fun hx => absurd (o2 x hx) (not_lt.mpr c.le)
      clear ihr
      by_cases hl : l = nil
      · subst hl
        clear ihl
        simp only [avl_insert_lt_nil c, avl_fixHeight_node, Option.map_some', mk, avl_heightOf_node,
          avl_heightOf_eq_realHeight e3]
        refine ⟨_, _, rfl, ?_, ?_, ?_, ?_, ?_, ?_, ?_, ?_, ?_⟩
        · refine ⟨?_, o2, ⟨by simp [toList], by simp [toList], trivial, trivial⟩, o4⟩
          intro y hy
          simp [toList] at hy
          rw [hy]; exact c
        · exact ⟨by simp [realHeight], ⟨rfl, trivial, trivial⟩, e3⟩
        · simp only [Balanced, realHeight] at b2 ⊢
          exact ⟨by omega, by omega, ⟨by omega, by omega, trivial, trivial⟩, b4⟩
        · intro y; simp [toList]
        · simp only [toList, List.nil_append, List.mem_cons, not_or, true_iff]
          exact ⟨c.ne, hxr⟩
        · simp only [realHeight]; omega
        · simp only [realHeight] at b2 ⊢; omega
        · simp only [size, if_true]; omega
        · intro hf; cases hf
      · obtain ⟨l1, b, hins, p1, p2, p3, p4, p5, p6, p7, p8, p9⟩ := ihl hl o3 e2 b3
        obtain ⟨t1, hbal, q1, q2, q3, q4, q5, q6, q7⟩ :=
          avl_balance_spec d h l1 r p2 e3 p3 b4 (by omega) (by omega)
        simp only [avl_insert_lt_node c h hl, hins, Option.some_bind, hbal, Option.map_some']
        clear ihl hins hbal
        have hcase : realHeight t1 = max (realHeight l1) (realHeight r) + 1 ∨
            realHeight r + 2 ≤ realHeight l1 := by
          by_cases hrot : realHeight l1 ≤ realHeight r + 1
          · left; rw [q7 hrot (by omega)]; rfl
          · right; omega
        refine ⟨_, _, rfl, ?_, q1, q2, ?_, ?_, ?_, ?_, ?_, ?_⟩
        · rw [avl_ordered_iff_pairwise, q3]
          have : Ordered (node d h l1 r) := by
            refine ⟨?_, o2, p1, o4⟩
            intro y hy
            rcases (p4 y).mp hy with rfl | hy
            · exact c
            · exact o1 y hy
          exact (avl_ordered_iff_pairwise _).mp this
        · intro y
          simp only [q3, toList, List.mem_append, List.mem_cons, p4]
          constructor
          · rintro ((hy | hy) | hy | hy)
            · exact Or.inl hy
            · exact Or.inr (Or.inl hy)
            · exact Or.inr (Or.inr (Or.inl hy))
            · exact Or.inr (Or.inr (Or.inr hy))
          · rintro (hy | hy | hy | hy)
            · exact Or.inl (Or.inl hy)
            · exact Or.inl (Or.inr hy)
            · exact Or.inr (Or.inl hy)
            · exact Or.inr (Or.inr hy)
        · rw [p5]
          simp only [toList, List.mem_append, List.mem_cons, not_or]
          constructor
          · intro hx; exact ⟨hx, c.ne, hxr⟩
          · intro hx; exact hx.1
        · simp only [realHeight]; omega
        · simp only [realHeight]; omega
        · rw [q4, p8]; simp only [size]; omega
        · intro hf
          have hl1 := p9 hf
          subst hl1
          rw [q7 b1 b2, e1]
    · by_cases c2 : d < x
      · have hxl : x ∉ toList l := fun hx => absurd (o1 x hx) (not_lt.mpr c2.le)
        clear ihl
        by_cases hr : r = nil
        · subst hr
          clear ihr
          simp only [avl_insert_gt_nil c2, avl_fixHeight_node, Option.map_some', mk, avl_heightOf_node,
            avl_heightOf_eq_realHeight e2]
          refine ⟨_, _, rfl, ?_, ?_, ?_, ?_, ?_, ?_, ?_, ?_, ?_⟩
          · refine ⟨o1, ?_, o3, ⟨by simp [toList], by simp [toList], trivial, trivial⟩⟩
            intro y hy
            simp [toList] at hy
            rw [hy]; exact c2
          · exact ⟨by simp [realHeight], e2, ⟨rfl, trivial, trivial⟩⟩
          · simp only [Balanced, realHeight] at b1 ⊢
            exact ⟨by omega, by omega, b3, ⟨by omega, by omega, trivial, trivial⟩⟩
          · intro y; simp [toList]; tauto
          · simp only [toList, List.mem_append, List.mem_cons, List.not_mem_nil, or_false,
              not_or, true_iff]
            exact ⟨hxl, c2.ne'⟩
          · simp only [realHeight]; omega
          · simp only [realHeight] at b1 ⊢; omega
          · simp [size]
          · intro hf; cases hf
        · obtain ⟨r1, b, hins, p1, p2, p3, p4, p5, p6, p7, p8, p9⟩ := ihr hr o4 e3 b4
          obtain ⟨t1, hbal, q1, q2, q3, q4, q5, q6, q7⟩ :=
            avl_balance_spec d h l r1 e2 p2 b3 p3 (by omega) (by omega)
          simp only [avl_insert_gt_node c2 h l hr, hins, Option.some_bind, hbal, Option.map_some']
          clear ihr hins hbal
          have hcase : realHeight t1 = max (realHeight l) (realHeight r1) + 1 ∨
              realHeight l + 2 ≤ realHeight r1 := by
            by_cases hrot : realHeight r1 ≤ realHeight l + 1
            · left; rw [q7 (by omega) hrot]; rfl
            · right; omega
          refine ⟨_, _, rfl, ?_, q1, q2, ?_, ?_, ?_, ?_, ?_, ?_⟩
          · rw [avl_ordered_iff_pairwise, q3]
            have : Ordered (node d h l r1) := by
              refine ⟨o1, ?_, o3, p1⟩
              intro y hy
              rcases (p4 y).mp hy with rfl | hy
              · exact c2
              · exact o2 y hy
            exact (avl_ordered_iff_pairwise _).mp this
          · intro y
            simp only [q3, toList, List.mem_append, List.mem_cons, p4]
            constructor
            · rintro (hy | hy | hy | hy)
              · exact Or.inr (Or.inl hy)
              · exact Or.inr (Or.inr (Or.inl hy))
              · exact Or.inl hy
              · exact Or.inr (Or.inr (Or.inr hy))
            · rintro (hy | hy | hy | hy)
              · exact Or.inr (Or.inr (Or.inl hy))
              · exact Or.inl hy
              · exact Or.inr (Or.inl hy)
              · exact Or.inr (Or.inr (Or.inr hy))
          · rw [p5]
            simp only [toList, List.mem_append, List.mem_cons, not_or]
            constructor
            · intro hx; exact ⟨hxl, c2.ne', hx⟩
            · intro hx; exact hx.2.2
          · simp only [realHeight]; omega
          · simp only [realHeight]; omega
          · rw [q4, p8]; simp only [size]; omega
          · intro hf
            have hr1 := p9 hf
            subst hr1
            rw [q7 b1 b2, e1]
      · have hxd : x = d := le_antisymm (not_lt.mp c2) (not_lt.mp c)
        subst hxd
        clear ihl ihr
        refine ⟨_, _, avl_insert_eq x h l r, ⟨o1, o2, o3, o4⟩, ⟨e1, e2, e3⟩, ⟨b1, b2, b3, b4⟩,
          ?_, ?_, le_refl _, Nat.le_succ _, ?_, fun _ => rfl⟩
        · intro y; simp only [toList, List.mem_append, List.mem_cons]; tauto
        · simp [toList]
        · simp

end AvlNode
end SearchTrees

namespace SearchTrees
namespace AvlTree
variable {α : Type} [LinearOrder α]

theorem avlTree_search_eq (t : AvlTree α) (x : α) : search t x = AvlNode.search x t := by
  cases t <;> rfl

theorem avlTree_inv_nil : AvlNode.Inv (AvlNode.nil : AvlNode α) :=
  ⟨trivial, trivial, trivial⟩

theorem avlTree_insert_spec (root : AvlTree α) (x : α) (hi : AvlNode.Inv root) :
    ∃ t1 b, insert root x = some (t1, b) ∧ AvlNode.Inv t1 ∧
      (∀ y, y ∈ AvlNode.toList t1 ↔ y = x ∨ y ∈ AvlNode.toList root) ∧
      (b = true ↔ x ∉ AvlNode.toList root) ∧
      AvlNode.realHeight root ≤ AvlNode.realHeight t1 ∧
      AvlNode.realHeight t1 ≤ AvlNode.realHeight root + 1 ∧
      AvlNode.size t1 = AvlNode.size root + (if b then 1 else 0) ∧
      (b = false → t1 = root) := by
  cases root with
  | nil =>
    refine ⟨AvlNode.mk x, true, rfl, ?_, ?_, ?_, ?_, ?_, ?_, ?_⟩
    · refine ⟨⟨?_, ?_, trivial, trivial⟩, ⟨rfl, trivial, trivial⟩, ⟨?_, ?_, trivial, trivial⟩⟩ <;>
        simp [AvlNode.toList, AvlNode.realHeight]
    · intro y; simp [AvlNode.mk, AvlNode.toList]
    · simp [AvlNode.toList]
    · simp [AvlNode.realHeight]
    · simp [AvlNode.mk, AvlNode.realHeight]
    · simp [AvlNode.mk, AvlNode.size]
    · intro hf; cases hf
  | node d h l r =>
    by_cases c : x = d
    · subst c
      refine ⟨_, false, by simp [insert], hi, ?_, ?_, le_refl _, Nat.le_succ _, ?_, fun _ => rfl⟩
      · intro y; simp only [AvlNode.toList, List.mem_append, List.mem_cons]; tauto
      · simp [AvlNode.toList]
      · simp
    · obtain ⟨t1, b, h1, h2, h3, h4, h5⟩ :=
        AvlNode.avl_insert_spec x (AvlNode.node d h l r) (by simp) hi.1 hi.2.1 hi.2.2
      refine ⟨t1, b, ?_, ⟨h2, h3, h4⟩, h5⟩
      simp only [insert, ne_eq, c, not_false_eq_true, if_true]
      exact h1

theorem avlTree_insertFrom_spec (ks : List α) : ∀ root : AvlTree α, AvlNode.Inv root →
    ∃ t, insertFrom root ks = some t ∧ AvlNode.Inv t ∧
      ∀ y, y ∈ AvlNode.toList t ↔ y ∈ AvlNode.toList root ∨ y ∈ ks := by
  induction ks with
  | nil => intro root hi; exact ⟨root, rfl, hi, by simp⟩
  | cons k ks ih =>
    intro root hi
    obtain ⟨t1, b, h1, h2, h3, -⟩ := avlTree_insert_spec root k hi
    obtain ⟨t, g1, g2, g3⟩ := ih t1 h2
    refine ⟨t, ?_, g2, ?_⟩
    · simp only [insertFrom, h1, Option.some_bind]; exact g1
    · intro y; rw [g3, h3]; simp only [List.mem_cons]; tauto

theorem avlTree_insertAll_spec (ks : List α) :
    ∃ t, insertAll ks = some t ∧ AvlNode.Inv t ∧ ∀ y, y ∈ AvlNode.toList t ↔ y ∈ ks := by
  obtain ⟨t, h1, h2, h3⟩ := avlTree_insertFrom_spec ks AvlNode.nil avlTree_inv_nil
  exact ⟨t, h1, h2, fun y => by rw [h3]; simp [AvlNode.toList]⟩

end AvlTree

namespace AvlNode
variable {α : Type}

theorem avl_fib_le_size (t : AvlNode α) (hb : Balanced t) :
    Nat.fib (realHeight t + 2) ≤ size t + 1 := by
  induction t with
  | nil => simp [realHeight, size]
  | node d h l r ihl ihr =>
    obtain ⟨b1, b2, b3, b4⟩ := hb
    have hl := ihl b3
    have hr := ihr b4
    simp only [realHeight, size]
    rcases le_total (realHeight l) (realHeight r) with c | c
    · have e : Nat.fib (realHeight r + 1 + 2) =
          Nat.fib (realHeight r + 1) + Nat.fib (realHeight r + 2) := Nat.fib_add_two
      rw [max_eq_right c, e]
      have : Nat.fib (realHeight r + 1) ≤ Nat.fib (realHeight l + 2) :=
        Nat.fib_mono (by omega)
      omega
    · have e : Nat.fib (realHeight l + 1 + 2) =
          Nat.fib (realHeight l + 1) + Nat.fib (realHeight l + 2) := Nat.fib_add_two
      rw [max_eq_left c, e]
      have : Nat.fib (realHeight l + 1) ≤ Nat.fib (realHeight r + 2) :=
        Nat.fib_mono (by omega)
      omega

end AvlNode

end SearchTrees

namespace SearchTrees
namespace AvlNode
variable {α : Type}

theorem avl_storedHeightsOK {t : AvlNode α} (ht : HeightsExact t) : StoredHeightsOK t := by
  induction t with
  | nil => trivial
  | node d h l r ihl ihr =>
    obtain ⟨h1, h2, h3⟩ := ht
    exact ⟨by rw [avl_heightOf_eq_realHeight h2, avl_heightOf_eq_realHeight h3]; exact h1,
      ihl h2, ihr h3⟩

theorem avl_rotateLeft_toList (d : α) (h : Nat) (l : AvlNode α) (pd : α) (ph : Nat)
    (pl pr : AvlNode α) :
    ∃ t1, rotateLeft (node d h l (node pd ph pl pr)) = some t1 ∧
      toList t1 = toList (node d h l (node pd ph pl pr)) := by
  simp only [rotateLeft, avl_fixHeight_node, Option.some_bind]
  exact ⟨_, rfl, by simp [toList]⟩

theorem avl_rotateRight_toList (d : α) (h : Nat) (qd : α) (qh : Nat)
    (ql qr r : AvlNode α) :
    ∃ t1, rotateRight (node d h (node qd qh ql qr) r) = some t1 ∧
      toList t1 = toList (node d h (node qd qh ql qr) r) := by
  simp only [rotateRight, avl_fixHeight_node, Option.some_bind]
  exact ⟨_, rfl, by simp [toList]⟩

end AvlNode

namespace AvlTree
variable {α : Type} [LinearOrder α]

theorem avlTree_insertFrom_append (ks1 ks2 : List α) : ∀ root : AvlTree α,
    insertFrom root (ks1 ++ ks2) = (insertFrom root ks1).bind fun t => insertFrom t ks2 := by
  induction ks1 with
  | nil => intro root; rfl
  | cons k ks ih =>
    intro root
    simp only [List.cons_append, insertFrom]
    cases insert root k with
    | none => rfl
    | some res => exact ih _

theorem avlTree_insert_of_mem (t : AvlTree α) (k : α) (hi : AvlNode.Inv t)
    (hk : k ∈ AvlNode.toList t) : insert t k = some (t, false) := by
  obtain ⟨t1, b, h1, -, -, h4, -, -, -, h8⟩ := avlTree_insert_spec t k hi
  have hb : b = false := by
    cases b with
    | false => rfl
    | true => exact absurd hk (h4.mp rfl)
  subst hb
  rw [h1, h8 rfl]

end AvlTree
end SearchTrees

/-! ## The red-black tree: lemmas -/

namespace SearchTrees
namespace RedBlackNode
variable {α : Type}

theorem rb_toList_plug (f : Frame α) (t : RedBlackNode α) :
    toList (f.plug t) =
      (if f.isLeft then [] else toList f.other ++ [f.data]) ++ toList t ++
        (if f.isLeft then f.data :: toList f.other else []) := by
  unfold Frame.plug
  cases f.isLeft <;> simp [toList]

theorem rb_toList_findRoot (path : List (Frame α)) : ∀ t : RedBlackNode α,
    toList (findRoot t path) = keysBefore path ++ toList t ++ keysAfter path := by
  induction path with
  | nil => intro t; simp [findRoot, keysBefore, keysAfter]
  | cons f up ih =>
    intro t
    simp only [findRoot, ih, rb_toList_plug, keysBefore, keysAfter, List.append_assoc]

theorem rb_findRoot_ok (path : List (Frame α)) : ∀ t : RedBlackNode α,
    PathOK path → NoRedRed t → (red t = true → ParentBlack path) →
    NoRedRed (findRoot t path) ∧ red (findRoot t path) = false := by
  induction path with
  | nil =>
    intro t _ ht hr
    refine ⟨ht, ?_⟩
    cases hc : red t
    · exact hc
    · exact absurd (hr hc) (by simp [ParentBlack])
  | cons f up ih =>
    intro t hp ht hr
    obtain ⟨h1, h2, h3⟩ := hp
    simp only [findRoot]
    apply ih _ h3
    · unfold Frame.plug
      cases hl : f.isLeft <;> simp only [Bool.false_eq_true, if_false, if_true, NoRedRed]
      · refine ⟨fun hc => ⟨(h2 hc).1, ?_⟩, h1, ht⟩
        cases hrt : red t
        · rfl
        · have := hr hrt
          simp only [ParentBlack] at this
          rw [this] at hc; cases hc
      · refine ⟨fun hc => ⟨?_, (h2 hc).1⟩, ht, h1⟩
        cases hrt : red t
        · rfl
        · have := hr hrt
          simp only [ParentBlack] at this
          rw [this] at hc; cases hc
    · intro hc
      have : f.isRed = true := by
        unfold Frame.plug at hc
        cases hl : f.isLeft <;> simpa [hl, red] using hc
      exact (h2 this).2


theorem rb_red_nil : red (nil : RedBlackNode α) = false := rfl

theorem rb_red_node (d : α) (c : Bool) (l r : RedBlackNode α) : red (node d c l r) = c := rfl

theorem rb_balance_root (k : RedBlackNode α) : balance k [] = setIsRed false k := by
  unfold balance; rfl

theorem rb_balance_black (kd : α) (kc : Bool) (kl kr : RedBlackNode α) (p : Frame α)
    (rest : List (Frame α)) (hp : p.isRed = false) :
    balance (node kd kc kl kr) (p :: rest) = some (findRoot (p.plug (node kd kc kl kr)) rest) := by
  unfold balance
  simp only [hp, Bool.false_eq_true, if_false]

theorem rb_findRoot_up (top : RedBlackNode α) (up : List (Frame α)) :
    (match up with
      | [] => some top
      | gParent :: up1 => some (findRoot (gParent.plug top) up1)) = some (findRoot top up) := by
  cases up <;> rfl

theorem rb_balance_recolour (kd : α) (kc : Bool) (kl kr : RedBlackNode α) (pd gd sd : α)
    (pl gl : Bool) (po sl sr : RedBlackNode α) (gc : Bool) (up : List (Frame α)) :
    balance (node kd kc kl kr) (⟨pd, true, pl, po⟩ :: ⟨gd, gc, gl, node sd true sl sr⟩ :: up) =
      balance (Frame.plug ⟨gd, true, gl, node sd false sl sr⟩
        (Frame.plug ⟨pd, false, pl, po⟩ (node kd kc kl kr))) up := by
  conv_lhs => unfold balance
  simp only [blackOrAbsent, Bool.not_true, Bool.false_eq_true, if_false, if_true, setIsRed,
    Option.some_bind]

theorem rb_balance_rotate (kd : α) (kc : Bool) (kl kr : RedBlackNode α) (pd gd : α)
    (pl gl : Bool) (po s : RedBlackNode α) (gc : Bool) (up : List (Frame α))
    (hs : blackOrAbsent s = true) :
    balance (node kd kc kl kr) (⟨pd, true, pl, po⟩ :: ⟨gd, gc, gl, s⟩ :: up) =
      some (findRoot
        (match pl, gl with
          | true, true => node pd false (node kd kc kl kr) (node gd true po s)
          | false, true => node kd false (node pd true po kl) (node gd true kr s)
          | true, false => node kd false (node gd true s kl) (node pd false kr po)
          | false, false => node pd false (node gd true s po) (node kd kc kl kr)) up) := by
  conv_lhs => unfold balance
  cases pl <;> cases gl <;>
    simp only [hs, Bool.false_eq_true, if_false, if_true, Frame.plug, rotateLeft, rotateRight,
      Option.some_bind, Bool.not_false, Bool.not_true] <;>
    cases up <;> rfl

theorem rb_black_of_blackOrAbsent {s : RedBlackNode α} (hs : blackOrAbsent s = true) :
    red s = false := by
  cases s with
  | nil => rfl
  | node d c l r => simpa [blackOrAbsent, rb_red_node] using hs

theorem rb_balance_spec (n : Nat) : ∀ (path : List (Frame α)) (k : RedBlackNode α),
    path.length ≤ n → red k = true → NoRedRed k → PathOK path →
    ∃ res, balance k path = some res ∧ NoRedRed res ∧ red res = false ∧
      toList res = keysBefore path ++ toList k ++ keysAfter path := by
  induction n using Nat.strong_induction_on with
  | _ n ih =>
    intro path k hlen hk hnk hp
    cases k with
    | nil => simp [red] at hk
    | node kd kc kl kr =>
      simp only [red] at hk
      subst hk
      obtain ⟨hkc, hkl, hkr⟩ := hnk
      obtain ⟨hkl1, hkr1⟩ := hkc rfl
      cases path with
      | nil =>
        exact ⟨node kd false kl kr, rfl, ⟨by simp, hkl, hkr⟩, rfl,
          by simp [keysBefore, keysAfter, toList]⟩
      | cons p rest =>
        by_cases hpc : p.isRed = true
        · obtain ⟨hp1, hp2, hp3⟩ := hp
          obtain ⟨hpo, hpb⟩ := hp2 hpc
          cases rest with
          | nil => exact absurd hpb (by simp [ParentBlack])
          | cons g up =>
            simp only [ParentBlack] at hpb
            obtain ⟨hg1, hg2, hg3⟩ := hp3
            obtain ⟨pd, pc, pl, po⟩ := p
            obtain ⟨gd, gc, gl, s⟩ := g
            simp only at hpc hpb hpo hp1 hg1
            subst hpc
            subst hpb
            cases hs : blackOrAbsent s
            · cases s with
              | nil => simp [blackOrAbsent] at hs
              | node sd sc sl sr =>
                simp only [blackOrAbsent, Bool.not_eq_false'] at hs
                subst hs
                obtain ⟨-, hsl, hsr⟩ := hg1
                simp only [List.length_cons] at hlen
                obtain ⟨res, h1, h2, h3, h4⟩ := ih (n - 2) (by omega) up
                  (Frame.plug ⟨gd, true, gl, node sd false sl sr⟩
                    (Frame.plug ⟨pd, false, pl, po⟩ (node kd true kl kr)))
                  (by omega)
                  (by cases gl <;> simp [Frame.plug, rb_red_node])
                  (by
                    cases gl <;> cases pl <;>
                      simp [Frame.plug, rb_red_node, NoRedRed, hkl, hkr, hkl1, hkr1, hp1, hsl, hsr])
                  hg3
                refine ⟨res, ?_, h2, h3, ?_⟩
                · rw [rb_balance_recolour]; exact h1
                · rw [h4]
                  cases gl <;> cases pl <;>
                    simp [Frame.plug, toList, keysBefore, keysAfter]
            · have hsb := rb_black_of_blackOrAbsent hs
              rw [rb_balance_rotate _ _ _ _ _ _ _ _ _ _ _ _ hs]
              refine ⟨_, rfl, ?_⟩
              have hok : ∀ top : RedBlackNode α, NoRedRed top → red top = false →
                  NoRedRed (findRoot top up) ∧ red (findRoot top up) = false :=
                fun top h1 h2 => rb_findRoot_ok up top hg3 h1 (fun h => by rw [h2] at h; cases h)
              rw [rb_toList_findRoot, ← and_assoc]
              cases pl <;> cases gl <;> simp only
              · refine ⟨hok _ ?_ rfl, ?_⟩
                · simp [NoRedRed, rb_red_node, hkl, hkr, hkl1, hkr1, hp1, hg1, hpo, hsb]
                · simp [toList, keysBefore, keysAfter]
              · refine ⟨hok _ ?_ rfl, ?_⟩
                · simp [NoRedRed, rb_red_node, hkl, hkr, hkl1, hkr1, hp1, hg1, hpo, hsb]
                · simp [toList, keysBefore, keysAfter]
              · refine ⟨hok _ ?_ rfl, ?_⟩
                · simp [NoRedRed, rb_red_node, hkl, hkr, hkl1, hkr1, hp1, hg1, hpo, hsb]
                · simp [toList, keysBefore, keysAfter]
              · refine ⟨hok _ ?_ rfl, ?_⟩
                · simp [NoRedRed, rb_red_node, hkl, hkr, hkl1, hkr1, hp1, hg1, hpo, hsb]
                · simp [toList, keysBefore, keysAfter]
        · have hpc2 : p.isRed = false := by simpa using hpc
          rw [rb_balance_black _ _ _ _ _ _ hpc2]
          have := rb_findRoot_ok (p :: rest) (node kd true kl kr) hp ⟨fun _ => ⟨hkl1, hkr1⟩, hkl, hkr⟩
            (fun _ => hpc2)
          exact ⟨_, rfl, this.1, this.2, by
            rw [← rb_toList_findRoot (p :: rest)]; rfl⟩


theorem rb_insert_lt_nil [LinearOrder α] {x d : α} (c : x < d) (cl : Bool) (r : RedBlackNode α)
    (path : List (Frame α)) :
    insert x (node d cl nil r) path =
      (balance (mk x true) (⟨d, cl, true, r⟩ :: path)).map some := by
  conv_lhs => unfold insert
  simp only [c, if_true]

theorem rb_insert_lt_node [LinearOrder α] {x d : α} (c : x < d) (cl : Bool) {l : RedBlackNode α}
    (hl : l ≠ nil) (r : RedBlackNode α) (path : List (Frame α)) :
    insert x (node d cl l r) path = insert x l (⟨d, cl, true, r⟩ :: path) := by
  cases l with
  | nil => exact absurd rfl hl
  | node ld lc ll lr =>
    conv_lhs => unfold insert
    simp only [c, if_true]

theorem rb_insert_gt_nil [LinearOrder α] {x d : α} (c : d < x) (cl : Bool) (l : RedBlackNode α)
    (path : List (Frame α)) :
    insert x (node d cl l nil) path =
      (balance (mk x true) (⟨d, cl, false, l⟩ :: path)).map some := by
  conv_lhs => unfold insert
  simp only [not_lt.mpr c.le, c, if_true, if_false]

theorem rb_insert_gt_node [LinearOrder α] {x d : α} (c : d < x) (cl : Bool) (l : RedBlackNode α)
    {r : RedBlackNode α} (hr : r ≠ nil) (path : List (Frame α)) :
    insert x (node d cl l r) path = insert x r (⟨d, cl, false, l⟩ :: path) := by
  cases r with
  | nil => exact absurd rfl hr
  | node rd rc rl rr =>
    conv_lhs => unfold insert
    simp only [not_lt.mpr c.le, c, if_true, if_false]

theorem rb_insert_eq [LinearOrder α] (x : α) (cl : Bool) (l r : RedBlackNode α)
    (path : List (Frame α)) : insert x (node x cl l r) path = some none := by
  conv_lhs => unfold insert
  simp only [lt_irrefl, if_false]

theorem rb_search_iff_mem [LinearOrder α] (x : α) (t : RedBlackNode α)
    (ht : (toList t).Pairwise (· < ·)) : search x t = true ↔ x ∈ toList t := by
  induction t with
  | nil => simp [search, toList]
  | node d c l r ihl ihr =>
    simp only [toList, List.pairwise_append, List.pairwise_cons, List.mem_cons] at ht
    obtain ⟨h3, ⟨h2, h4⟩, h5⟩ := ht
    have h1 : ∀ y ∈ toList l, y < d := fun y hy => h5 y hy d (Or.inl rfl)
    simp only [search, toList, List.mem_append, List.mem_cons]
    by_cases e : x = d
    · simp [e]
    · by_cases c : x < d
      · simp only [e, c, if_true, if_false, ihl h3, false_or]
        constructor
        · exact Or.inl
        · rintro (hx | hx)
          · exact hx
          · exact absurd (h2 x hx) (not_lt.mpr c.le)
      · simp only [e, c, if_false, ihr h4, false_or]
        constructor
        · exact Or.inr
        · rintro (hx | hx)
          · exact absurd (h1 x hx) c
          · exact hx

theorem rb_insert_spec [LinearOrder α] (x : α) (t : RedBlackNode α) :
    ∀ path : List (Frame α), t ≠ nil → NoRedRed t → PathOK path →
      (red t = true → ParentBlack path) →
      ∃ o, insert x t path = some o ∧ (o = none ↔ search x t = true) ∧
        ∀ res, o = some res → NoRedRed res ∧ red res = false ∧
          ∃ L R, toList t = L ++ R ∧
            toList res = keysBefore path ++ (L ++ x :: R) ++ keysAfter path ∧
            ((toList t).Pairwise (· < ·) → (∀ y ∈ L, y < x) ∧ ∀ y ∈ R, x < y) := by
  induction t with
  | nil => intro path hne; exact absurd rfl hne
  | node d c l r ihl ihr =>
    intro path _ hn hp hr
    obtain ⟨n1, n2, n3⟩ := hn
    simp only [rb_red_node] at hr
    by_cases c1 : x < d
    · clear ihr
      have hpath : PathOK (⟨d, c, true, r⟩ :: path) :=
        ⟨n3, fun hc => ⟨(n1 hc).2, hr hc⟩, hp⟩
      by_cases hl : l = nil
      · subst hl
        clear ihl
        obtain ⟨res, h1, h2, h3, h4⟩ := rb_balance_spec _ (⟨d, c, true, r⟩ :: path) (mk x true)
          (le_refl _) rfl ⟨fun _ => ⟨rfl, rfl⟩, trivial, trivial⟩ hpath
        refine ⟨some res, ?_, ?_, ?_⟩
        · rw [rb_insert_lt_nil c1, h1]; rfl
        · simp [search, c1, c1.ne]
        · intro res1 hres
          cases hres
          refine ⟨h2, h3, [], d :: toList r, rfl, ?_, ?_⟩
          · rw [h4]; simp [keysBefore, keysAfter, mk, toList]
          · intro hs
            simp only [toList, List.nil_append, List.pairwise_cons] at hs
            refine ⟨fun y hy => absurd hy (List.not_mem_nil y), fun y hy => ?_⟩
            rcases List.mem_cons.mp hy with rfl | hy
            · exact c1
            · exact lt_trans c1 (hs.1 y hy)
      · obtain ⟨o, h1, h2, h3⟩ := ihl (⟨d, c, true, r⟩ :: path) hl n2 hpath
          (fun hc => by
            show c = false
            cases hcc : c
            · rfl
            · rw [(n1 hcc).1] at hc; cases hc)
        refine ⟨o, ?_, ?_, ?_⟩
        · rw [rb_insert_lt_node c1 c hl]; exact h1
        · rw [h2]; simp [search, c1, c1.ne]
        · intro res hres
          obtain ⟨g1, g2, L, R, g3, g4, g5⟩ := h3 res hres
          refine ⟨g1, g2, L, R ++ d :: toList r, ?_, ?_, ?_⟩
          · simp [toList, g3]
          · rw [g4]; simp [keysBefore, keysAfter]
          · intro hs
            simp only [toList, List.pairwise_append, List.pairwise_cons, List.mem_cons] at hs
            obtain ⟨s1, ⟨s2, s3⟩, s4⟩ := hs
            obtain ⟨g6, g7⟩ := g5 s1
            refine ⟨g6, fun y hy => ?_⟩
            rcases List.mem_append.mp hy with hy | hy
            · exact g7 y hy
            · rcases List.mem_cons.mp hy with rfl | hy
              · exact c1
              · exact lt_trans c1 (s2 y hy)
    · by_cases c2 : d < x
      · clear ihl
        have hpath : PathOK (⟨d, c, false, l⟩ :: path) :=
          ⟨n2, fun hc => ⟨(n1 hc).1, hr hc⟩, hp⟩
        by_cases hrn : r = nil
        · subst hrn
          clear ihr
          obtain ⟨res, h1, h2, h3, h4⟩ := rb_balance_spec _ (⟨d, c, false, l⟩ :: path) (mk x true)
            (le_refl _) rfl ⟨fun _ => ⟨rfl, rfl⟩, trivial, trivial⟩ hpath
          refine ⟨some res, ?_, ?_, ?_⟩
          · rw [rb_insert_gt_nil c2, h1]; rfl
          · simp [search, c1, c2.ne']
          · intro res1 hres
            cases hres
            refine ⟨h2, h3, toList l ++ [d], [], by simp [toList], ?_, ?_⟩
            · rw [h4]; simp [keysBefore, keysAfter, mk, toList]
            · intro hs
              simp only [toList, List.pairwise_append, List.pairwise_cons, List.mem_cons] at hs
              obtain ⟨s1, ⟨s2, s3⟩, s4⟩ := hs
              refine ⟨fun y hy => ?_, fun y hy => absurd hy (List.not_mem_nil y)⟩
              rcases List.mem_append.mp hy with hy | hy
              · exact lt_trans (s4 y hy d (Or.inl rfl)) c2
              · rw [List.mem_singleton.mp hy]; exact c2
        · obtain ⟨o, h1, h2, h3⟩ := ihr (⟨d, c, false, l⟩ :: path) hrn n3 hpath
            (fun hc => by
              show c = false
              cases hcc : c
              · rfl
              · rw [(n1 hcc).2] at hc; cases hc)
          refine ⟨o, ?_, ?_, ?_⟩
          · rw [rb_insert_gt_node c2 c l hrn]; exact h1
          · rw [h2]; simp [search, c1, c2.ne']
          · intro res hres
            obtain ⟨g1, g2, L, R, g3, g4, g5⟩ := h3 res hres
            refine ⟨g1, g2, toList l ++ d :: L, R, ?_, ?_, ?_⟩
            · simp [toList, g3]
            · rw [g4]; simp [keysBefore, keysAfter]
            · intro hs
              simp only [toList, List.pairwise_append, List.pairwise_cons, List.mem_cons] at hs
              obtain ⟨s1, ⟨s2, s3⟩, s4⟩ := hs
              obtain ⟨g6, g7⟩ := g5 s3
              refine ⟨fun y hy => ?_, g7⟩
              rcases List.mem_append.mp hy with hy | hy
              · exact lt_trans (s4 y hy d (Or.inl rfl)) c2
              · rcases List.mem_cons.mp hy with rfl | hy
                · exact c2
                · exact g6 y hy
      · have hxd : x = d := le_antisymm (not_lt.mp c2) (not_lt.mp c1)
        subst hxd
        refine ⟨none, rb_insert_eq x c l r path, by simp [search], ?_⟩
        intro res hres; cases hres

end RedBlackNode

namespace RedBlackTree
variable {α : Type} [LinearOrder α]

theorem rbTree_search_eq (t : RedBlackTree α) (x : α) : search t x = RedBlackNode.search x t := by
  cases t <;> rfl

theorem rbTree_inv_nil : RedBlackNode.Inv (RedBlackNode.nil : RedBlackNode α) :=
  ⟨List.Pairwise.nil, rfl, trivial⟩

theorem rbTree_insert_spec (root : RedBlackTree α) (x : α) (hi : RedBlackNode.Inv root) :
    ∃ t1 b, insert root x = some (t1, b) ∧ RedBlackNode.Inv t1 ∧
      (∀ y, y ∈ RedBlackNode.toList t1 ↔ y = x ∨ y ∈ RedBlackNode.toList root) ∧
      (b = true ↔ x ∉ RedBlackNode.toList root) ∧
      (b = false → t1 = root) := by
  obtain ⟨i1, i2, i3⟩ := hi
  cases root with
  | nil =>
    refine ⟨RedBlackNode.mk x false, true, rfl, ?_, ?_, ?_, ?_⟩
    · exact ⟨by simp [RedBlackNode.mk, RedBlackNode.toList], rfl,
        ⟨by simp, trivial, trivial⟩⟩
    · intro y; simp [RedBlackNode.mk, RedBlackNode.toList]
    · simp [RedBlackNode.toList]
    · intro hf; cases hf
  | node d c l r =>
    by_cases e : x = d
    · subst e
      refine ⟨_, false, by simp [insert], ⟨i1, i2, i3⟩, ?_, ?_, fun _ => rfl⟩
      · intro y; simp only [RedBlackNode.toList, List.mem_append, List.mem_cons]; tauto
      · simp [RedBlackNode.toList]
    · obtain ⟨o, h1, h2, h3⟩ := RedBlackNode.rb_insert_spec x (RedBlackNode.node d c l r) []
        (by simp) i3 trivial (fun hc => by rw [i2] at hc; cases hc)
      rw [RedBlackNode.rb_search_iff_mem x _ i1] at h2
      simp only [insert, ne_eq, e, not_false_eq_true, if_true, h1, Option.map_some']
      cases o with
      | none =>
        have hx := h2.mp rfl
        refine ⟨_, _, rfl, ⟨i1, i2, i3⟩, ?_, ?_, fun _ => rfl⟩
        · intro y
          constructor
          · exact Or.inr
          · rintro (rfl | hy)
            · exact hx
            · exact hy
        · simp [hx]
      | some res =>
        have hx : x ∉ RedBlackNode.toList (RedBlackNode.node d c l r) := fun hx => by
          have := h2.mpr hx
          cases this
        obtain ⟨g1, g2, L, R, g3, g4, g5⟩ := h3 res rfl
        obtain ⟨g6, g7⟩ := g5 i1
        simp only [RedBlackNode.keysBefore, RedBlackNode.keysAfter, List.nil_append,
          List.append_nil] at g4
        refine ⟨_, _, rfl, ⟨?_, g2, g1⟩, ?_, ?_, ?_⟩
        · rw [g3, List.pairwise_append] at i1
          rw [g4, List.pairwise_append, List.pairwise_cons]
          refine ⟨i1.1, ⟨g7, i1.2.1⟩, fun a ha b hb => ?_⟩
          rcases List.mem_cons.mp hb with rfl | hb
          · exact g6 a ha
          · exact i1.2.2 a ha b hb
        · intro y
          rw [g4, g3]
          simp only [List.mem_append, List.mem_cons]
          tauto
        · simp [hx]
        · intro hf; cases hf

theorem rbTree_insertFrom_spec (ks : List α) : ∀ root : RedBlackTree α, RedBlackNode.Inv root →
    ∃ t, insertFrom root ks = some t ∧ RedBlackNode.Inv t ∧
      ∀ y, y ∈ RedBlackNode.toList t ↔ y ∈ RedBlackNode.toList root ∨ y ∈ ks := by
  induction ks with
  | nil => intro root hi; exact ⟨root, rfl, hi, by simp⟩
  | cons k ks ih =>
    intro root hi
    obtain ⟨t1, b, h1, h2, h3, -⟩ := rbTree_insert_spec root k hi
    obtain ⟨t, g1, g2, g3⟩ := ih t1 h2
    refine ⟨t, ?_, g2, ?_⟩
    · simp only [insertFrom, h1, Option.some_bind]; exact g1
    · intro y; rw [g3, h3]; simp only [List.mem_cons]; tauto

theorem rbTree_insertAll_spec (ks : List α) :
    ∃ t, insertAll ks = some t ∧ RedBlackNode.Inv t ∧
      ∀ y, y ∈ RedBlackNode.toList t ↔ y ∈ ks := by
  obtain ⟨t, h1, h2, h3⟩ := rbTree_insertFrom_spec ks RedBlackNode.nil rbTree_inv_nil
  exact ⟨t, h1, h2, fun y => by rw [h3]; simp [RedBlackNode.toList]⟩

omit [LinearOrder α] in
theorem rbTree_eq_nil_iff (t : RedBlackTree α) (ks : List α)
    (h : ∀ y, y ∈ RedBlackNode.toList t ↔ y ∈ ks) : t = RedBlackNode.nil ↔ ks = [] := by
  constructor
  · intro ht
    subst ht
    apply List.eq_nil_iff_forall_not_mem.mpr
    intro y hy
    have := (h y).mpr hy
    simp [RedBlackNode.toList] at this
  · intro hk
    subst hk
    cases t with
    | nil => rfl
    | node d c l r =>
      have := (h d).mp (by simp [RedBlackNode.toList])
      cases this

end RedBlackTree

end SearchTrees

namespace SearchTrees
namespace RedBlackNode
variable {α : Type}

theorem rb_ordered_iff_pairwise [LinearOrder α] (t : RedBlackNode α) :
    Ordered t ↔ (toList t).Pairwise (· < ·) := by
  induction t with
  | nil => simp [Ordered, toList]
  | node d c l r ihl ihr =>
    simp only [Ordered, toList, List.pairwise_append, List.pairwise_cons, ihl, ihr,
      List.mem_cons]
    constructor
    · rintro ⟨h1, h2, h3, h4⟩
      refine ⟨h3, ⟨h2, h4⟩, fun a ha b hb => ?_⟩
      rcases hb with rfl | hb
      · exact h1 a ha
      · exact lt_trans (h1 a ha) (h2 b hb)
    · rintro ⟨h3, ⟨h2, h4⟩, h5⟩
      exact ⟨fun y hy => h5 y hy d (Or.inl rfl), h2, h3, h4⟩

theorem rb_balance_nil (p : Frame α) (rest : List (Frame α)) :
    balance (nil : RedBlackNode α) (p :: rest) = none := by
  unfold balance; rfl

theorem rb_balance_no_grandparent (kd : α) (kc : Bool) (kl kr : RedBlackNode α) (p : Frame α)
    (hp : p.isRed = true) : balance (node kd kc kl kr) [p] = none := by
  unfold balance
  simp only [hp, if_true]

theorem rb_balance_toList (n : Nat) : ∀ (path : List (Frame α)) (k res : RedBlackNode α),
    path.length ≤ n → balance k path = some res →
    toList res = toList (findRoot k path) := by
  induction n using Nat.strong_induction_on with
  | _ n ih =>
    intro path k res hlen hres
    cases k with
    | nil =>
      cases path with
      | nil => simp [rb_balance_root, setIsRed] at hres
      | cons p rest => simp [rb_balance_nil] at hres
    | node kd kc kl kr =>
      cases path with
      | nil =>
        simp only [rb_balance_root, setIsRed, Option.some.injEq] at hres
        subst hres
        rfl
      | cons p rest =>
        cases hpc : p.isRed
        · rw [rb_balance_black _ _ _ _ _ _ hpc, Option.some.injEq] at hres
          subst hres
          rfl
        · cases rest with
          | nil => simp [rb_balance_no_grandparent _ _ _ _ _ hpc] at hres
          | cons g up =>
            obtain ⟨pd, pc, pl, po⟩ := p
            obtain ⟨gd, gc, gl, s⟩ := g
            simp only at hpc
            subst hpc
            cases hs : blackOrAbsent s
            · cases s with
              | nil => simp [blackOrAbsent] at hs
              | node sd sc sl sr =>
                simp only [blackOrAbsent, Bool.not_eq_false'] at hs
                subst hs
                rw [rb_balance_recolour] at hres
                simp only [List.length_cons] at hlen
                rw [ih (n - 2) (by omega) up _ res (by omega) hres]
                simp only [rb_toList_findRoot]
                cases gl <;> cases pl <;>
                  simp [Frame.plug, toList, keysBefore, keysAfter]
            · rw [rb_balance_rotate _ _ _ _ _ _ _ _ _ _ _ _ hs, Option.some.injEq] at hres
              subst hres
              simp only [rb_toList_findRoot]
              cases pl <;> cases gl <;> simp [toList, keysBefore, keysAfter]

theorem rb_rotateLeft_toList (d : α) (c : Bool) (l : RedBlackNode α) (pd : α) (pc : Bool)
    (pl pr : RedBlackNode α) :
    ∃ t1, rotateLeft (node d c l (node pd pc pl pr)) = some t1 ∧
      toList t1 = toList (node d c l (node pd pc pl pr)) :=
  ⟨_, rfl, by simp [toList]⟩

theorem rb_rotateRight_toList (d : α) (c : Bool) (qd : α) (qc : Bool)
    (ql qr r : RedBlackNode α) :
    ∃ t1, rotateRight (node d c (node qd qc ql qr) r) = some t1 ∧
      toList t1 = toList (node d c (node qd qc ql qr) r) :=
  ⟨_, rfl, by simp [toList]⟩

end RedBlackNode

namespace RedBlackTree
variable {α : Type} [LinearOrder α]

theorem rbTree_insertFrom_append (ks1 ks2 : List α) : ∀ root : RedBlackTree α,
    insertFrom root (ks1 ++ ks2) = (insertFrom root ks1).bind fun t => insertFrom t ks2 := by
  induction ks1 with
  | nil => intro root; rfl
  | cons k ks ih =>
    intro root
    simp only [List.cons_append, insertFrom]
    cases insert root k with
    | none => rfl
    | some res => exact ih _

theorem rbTree_insert_of_mem (t : RedBlackTree α) (k : α) (hi : RedBlackNode.Inv t)
    (hk : k ∈ RedBlackNode.toList t) : insert t k = some (t, false) := by
  obtain ⟨t1, b, h1, -, -, h4, h5⟩ := rbTree_insert_spec t k hi
  have hb : b = false := by
    cases b with
    | false => rfl
    | true => exact absurd hk (h4.mp rfl)
  subst hb
  rw [h1, h5 rfl]

theorem rbTree_node_insert_of_mem (t : RedBlackTree α) (k : α) (hi : RedBlackNode.Inv t)
    (hk : k ∈ RedBlackNode.toList t) : RedBlackNode.insert k t [] = some none := by
  have hn : t ≠ RedBlackNode.nil := by
    intro h; subst h; simp [RedBlackNode.toList] at hk
  obtain ⟨o, f1, f2, -⟩ := RedBlackNode.rb_insert_spec k t [] hn hi.2.2 trivial
    (fun hc => by rw [hi.2.1] at hc; cases hc)
  rw [f1, f2.mpr ((RedBlackNode.rb_search_iff_mem k t hi.1).mpr hk)]

end RedBlackTree
end SearchTrees

/-! ## The claims -/

namespace SearchTrees

/-- C1. AVL membership: the tree built from the empty tree by inserting the keys
`ks` one by one exists (no insert meets a null pointer), and `search x` on it
returns `true` exactly when `x` occurs in `ks`; on the empty tree `search`
returns `false` for every key. -/
theorem avl_membership {α : Type} [LinearOrder α] :
    (∀ x : α, AvlTree.search (AvlNode.nil : AvlTree α) x = false) ∧
    ∀ (ks : List α) (x : α),
      ∃ t, AvlTree.insertAll ks = some t ∧ (AvlTree.search t x = true ↔ x ∈ ks) := by
  refine ⟨fun x => rfl, fun ks x => ?_⟩
  obtain ⟨t, h1, h2, h3⟩ := AvlTree.avlTree_insertAll_spec ks
  exact ⟨t, h1, by rw [AvlTree.avlTree_search_eq, AvlNode.avl_search_iff_mem x t h2.1, h3]⟩

/-- C3. AVL insert result: on the tree `t` built from the empty tree by
inserting `ks`, `insert k` returns a result, and its flag is `true` exactly when
`k` does not occur in `ks`, which is exactly when `search k` was `false` on `t`. -/
theorem avl_insert_result {α : Type} [LinearOrder α] (ks : List α) (k : α) :
    ∃ t t1 b, AvlTree.insertAll ks = some t ∧ AvlTree.insert t k = some (t1, b) ∧
      (b = true ↔ k ∉ ks) ∧ (b = true ↔ AvlTree.search t k = false) := by
  obtain ⟨t, h1, h2, h3⟩ := AvlTree.avlTree_insertAll_spec ks
  obtain ⟨t1, b, g1, -, -, g4, -⟩ := AvlTree.avlTree_insert_spec t k h2
  refine ⟨t, t1, b, h1, g1, by rw [g4, h3], ?_⟩
  rw [g4, AvlTree.avlTree_search_eq, ← AvlNode.avl_search_iff_mem k t h2.1]
  simp

/-- C5. AVL balance invariant: in the tree built from the empty tree by
inserting `ks`, the true heights of the two subtrees of every node differ by at
most one. -/
theorem avl_balanced {α : Type} [LinearOrder α] (ks : List α) :
    ∃ t, AvlTree.insertAll ks = some t ∧ AvlNode.Balanced t := by
  obtain ⟨t, h1, h2, -⟩ := AvlTree.avlTree_insertAll_spec ks
  exact ⟨t, h1, h2.2.2⟩

/-- C10. AVL height bound: the tree built from the empty tree by inserting `ks`
has `fib (h + 2) <= n + 1` for its height `h` and its number of nodes `n`. -/
theorem avl_height_bound {α : Type} [LinearOrder α] (ks : List α) :
    ∃ t, AvlTree.insertAll ks = some t ∧
      Nat.fib (AvlNode.realHeight t + 2) ≤ AvlNode.size t + 1 := by
  obtain ⟨t, h1, h2, -⟩ := AvlTree.avlTree_insertAll_spec ks
  exact ⟨t, h1, AvlNode.avl_fib_le_size t h2.2.2⟩

/-- C2. Red-black membership: the tree built from the empty tree by inserting
the keys `ks` one by one exists (no insert meets a null pointer), and `search x`
on it returns `true` exactly when `x` occurs in `ks`. -/
theorem rb_membership {α : Type} [LinearOrder α] (ks : List α) (x : α) :
    ∃ t, RedBlackTree.insertAll ks = some t ∧ (RedBlackTree.search t x = true ↔ x ∈ ks) := by
  obtain ⟨t, h1, h2, h3⟩ := RedBlackTree.rbTree_insertAll_spec ks
  exact ⟨t, h1, by rw [RedBlackTree.rbTree_search_eq, RedBlackNode.rb_search_iff_mem x t h2.1, h3]⟩

/-- C4. Red-black insert result: on the tree `t` built from the empty tree by
inserting `ks`, `RedBlackTree::insert k` returns a result whose flag is `true`
exactly when `k` does not occur in `ks`; and when `t` is not empty,
`RedBlackNode::insert k` called on the root returns the null pointer exactly
when `k` occurs in `ks`, and a root pointer otherwise. -/
theorem rb_insert_result {α : Type} [LinearOrder α] (ks : List α) (k : α) :
    ∃ t t1 b, RedBlackTree.insertAll ks = some t ∧
      RedBlackTree.insert t k = some (t1, b) ∧ (b = true ↔ k ∉ ks) ∧
      (t = RedBlackNode.nil ↔ ks = []) ∧
      (t = RedBlackNode.nil ∨
        ∃ o, RedBlackNode.insert k t [] = some o ∧ (o = none ↔ k ∈ ks)) := by
  obtain ⟨t, h1, h2, h3⟩ := RedBlackTree.rbTree_insertAll_spec ks
  obtain ⟨t1, b, g1, -, -, g4, -⟩ := RedBlackTree.rbTree_insert_spec t k h2
  refine ⟨t, t1, b, h1, g1, by rw [g4, h3], RedBlackTree.rbTree_eq_nil_iff t ks h3, ?_⟩
  by_cases hn : t = RedBlackNode.nil
  · exact Or.inl hn
  · right
    obtain ⟨o, f1, f2, -⟩ := RedBlackNode.rb_insert_spec k t [] hn h2.2.2 trivial
      (fun hc => by rw [h2.2.1] at hc; cases hc)
    exact ⟨o, f1, by rw [f2, RedBlackNode.rb_search_iff_mem k t h2.1, h3]⟩

/-- C7. Red-black no-red-red invariant: in the tree built from the empty tree by
inserting `ks`, no red node has a red child. -/
theorem rb_no_red_red {α : Type} [LinearOrder α] (ks : List α) :
    ∃ t, RedBlackTree.insertAll ks = some t ∧ RedBlackNode.NoRedRed t := by
  obtain ⟨t, h1, h2, -⟩ := RedBlackTree.rbTree_insertAll_spec ks
  exact ⟨t, h1, h2.2.2⟩

/-- C8. Red-black root colour: the tree built from the empty tree by inserting a
non-empty sequence of keys `k :: ks` has a root, and the root is black. -/
theorem rb_root_black {α : Type} [LinearOrder α] (k : α) (ks : List α) :
    ∃ d l r, RedBlackTree.insertAll (k :: ks) =
      some (RedBlackNode.node d false l r) := by
  obtain ⟨t, h1, h2, h3⟩ := RedBlackTree.rbTree_insertAll_spec (k :: ks)
  cases t with
  | nil =>
    have := (RedBlackTree.rbTree_eq_nil_iff _ _ h3).mp rfl
    cases this
  | node d c l r =>
    have hc : c = false := h2.2.1
    subst hc
    exact ⟨d, l, r, h1⟩

/-- C6, at the failing input. Inserting 10, 30, 20 into the empty red-black tree
gives the root 20 (black) with the children 10 (red) and 30 (black): the paths
from the root through 10 contain one black node, those through 30 two. -/
theorem rb_black_height_fails :
    RedBlackTree.insertAll [10, 30, 20] =
      some (RedBlackNode.node 20 false (RedBlackNode.node 10 true RedBlackNode.nil RedBlackNode.nil)
        (RedBlackNode.node 30 false RedBlackNode.nil RedBlackNode.nil)) ∧
    RedBlackNode.blackCounts (RedBlackNode.node 20 false
      (RedBlackNode.node 10 true RedBlackNode.nil RedBlackNode.nil)
      (RedBlackNode.node 30 false RedBlackNode.nil RedBlackNode.nil)) = [1, 1, 2, 2] ∧
    ¬ RedBlackNode.BlackBalanced (RedBlackNode.node 20 false
      (RedBlackNode.node 10 true RedBlackNode.nil RedBlackNode.nil)
      (RedBlackNode.node 30 false RedBlackNode.nil RedBlackNode.nil)) := by
  refine ⟨by decide, by decide, ?_⟩
  intro h
  have := h.1 1 (by decide) 2 (by decide)
  omega

/-- C9, at the failing input. Inserting the 17 keys 1, 3, 2, 5, 4, ..., 17, 16
into the empty red-black tree gives a tree of 17 nodes and height 9, and
`2 ^ 9 = 512` exceeds `(17 + 1) ^ 2 = 324`. -/
theorem rb_height_bound_fails :
    (RedBlackTree.insertAll [1, 3, 2, 5, 4, 7, 6, 9, 8, 11, 10, 13, 12, 15, 14, 17, 16]).map
        (fun t => (RedBlackNode.size t, RedBlackNode.height t)) = some (17, 9) ∧
      ¬ 2 ^ 9 ≤ (17 + 1) ^ 2 := by
  constructor
  · decide!
  · decide

/-- C11. AVL search-tree order: in the tree built from the empty tree by
inserting `ks`, every node has the keys of its left subtree below its key and
the keys of its right subtree above it, so the in-order key list is strictly
increasing; `rotateLeft` and `rotateRight`, applied to a node with its pivot
child, return a tree with the same in-order key list, which is ordered exactly
when the tree before the rotation is. -/
theorem avl_ordered {α : Type} [LinearOrder α] :
    (∀ ks : List α, ∃ t, AvlTree.insertAll ks = some t ∧ AvlNode.Ordered t ∧
      (AvlNode.toList t).Pairwise (· < ·)) ∧
    (∀ (d : α) (h : Nat) (l : AvlNode α) (pd : α) (ph : Nat) (pl pr : AvlNode α),
      ∃ t1, AvlNode.rotateLeft (AvlNode.node d h l (AvlNode.node pd ph pl pr)) = some t1 ∧
        AvlNode.toList t1 = AvlNode.toList (AvlNode.node d h l (AvlNode.node pd ph pl pr)) ∧
        (AvlNode.Ordered t1 ↔ AvlNode.Ordered (AvlNode.node d h l (AvlNode.node pd ph pl pr)))) ∧
    (∀ (d : α) (h : Nat) (qd : α) (qh : Nat) (ql qr r : AvlNode α),
      ∃ t1, AvlNode.rotateRight (AvlNode.node d h (AvlNode.node qd qh ql qr) r) = some t1 ∧
        AvlNode.toList t1 = AvlNode.toList (AvlNode.node d h (AvlNode.node qd qh ql qr) r) ∧
        (AvlNode.Ordered t1 ↔ AvlNode.Ordered (AvlNode.node d h (AvlNode.node qd qh ql qr) r))) := by
  refine ⟨fun ks => ?_, fun d h l pd ph pl pr => ?_, fun d h qd qh ql qr r => ?_⟩
  · obtain ⟨t, h1, h2, -⟩ := AvlTree.avlTree_insertAll_spec ks
    exact ⟨t, h1, h2.1, (AvlNode.avl_ordered_iff_pairwise t).mp h2.1⟩
  · obtain ⟨t1, h1, h2⟩ := AvlNode.avl_rotateLeft_toList d h l pd ph pl pr
    exact ⟨t1, h1, h2, by
      rw [AvlNode.avl_ordered_iff_pairwise, AvlNode.avl_ordered_iff_pairwise, h2]⟩
  · obtain ⟨t1, h1, h2⟩ := AvlNode.avl_rotateRight_toList d h qd qh ql qr r
    exact ⟨t1, h1, h2, by
      rw [AvlNode.avl_ordered_iff_pairwise, AvlNode.avl_ordered_iff_pairwise, h2]⟩

/-- C13. AVL duplicate insert is a no-op: on the tree `t` built from the empty
tree by inserting a sequence in which `k` occurs, `insert k` returns `false` and
the tree `t` itself, stored heights included; and inserting `k` twice at the end
of a sequence builds the same tree as inserting it once. -/
theorem avl_duplicate_noop {α : Type} [LinearOrder α] (ks1 : List α) (k : α) (ks2 : List α) :
    (∃ t, AvlTree.insertAll (ks1 ++ k :: ks2) = some t ∧
      AvlTree.insert t k = some (t, false)) ∧
    (∃ t, AvlTree.insertAll (ks1 ++ [k]) = some t ∧
      AvlTree.insertAll (ks1 ++ [k, k]) = some t) := by
  constructor
  · obtain ⟨t, h1, h2, h3⟩ := AvlTree.avlTree_insertAll_spec (ks1 ++ k :: ks2)
    exact ⟨t, h1, AvlTree.avlTree_insert_of_mem t k h2 ((h3 k).mpr (by simp))⟩
  · obtain ⟨t, h1, h2, h3⟩ := AvlTree.avlTree_insertAll_spec (ks1 ++ [k])
    refine ⟨t, h1, ?_⟩
    have e : ks1 ++ [k, k] = (ks1 ++ [k]) ++ [k] := by simp
    have h4 := AvlTree.avlTree_insert_of_mem t k h2 ((h3 k).mpr (by simp))
    unfold AvlTree.insertAll at h1 ⊢
    rw [e, AvlTree.avlTree_insertFrom_append, h1]
    simp only [Option.some_bind, AvlTree.insertFrom, h4]

/-- C15. AVL three-key scenarios: for keys `a < b < c`, inserting `a, b, c` and
inserting `c, a, b` into the empty tree both give the root `b` with stored
height 2 and the two leaves `a` and `c` with stored height 1. -/
theorem avl_three_keys {α : Type} [LinearOrder α] (a b c : α) (hab : a < b) (hbc : b < c) :
    AvlTree.insertAll [a, b, c] =
      some (AvlNode.node b 2 (AvlNode.node a 1 AvlNode.nil AvlNode.nil)
        (AvlNode.node c 1 AvlNode.nil AvlNode.nil)) ∧
    AvlTree.insertAll [c, a, b] =
      some (AvlNode.node b 2 (AvlNode.node a 1 AvlNode.nil AvlNode.nil)
        (AvlNode.node c 1 AvlNode.nil AvlNode.nil)) := by
  have hac : a < c := lt_trans hab hbc
  have s1 : ∀ x : α, AvlTree.insert AvlNode.nil x = some (AvlNode.mk x, true) := fun _ => rfl
  have lt_step : ∀ (x d : α) (h : Nat) (l r : AvlNode α), x < d →
      AvlTree.insert (AvlNode.node d h l r) x = AvlNode.insert x (AvlNode.node d h l r) := by
    intro x d h l r hx
    simp only [AvlTree.insert, ne_eq, hx.ne, not_false_eq_true, if_true]
  have gt_step : ∀ (x d : α) (h : Nat) (l r : AvlNode α), d < x →
      AvlTree.insert (AvlNode.node d h l r) x = AvlNode.insert x (AvlNode.node d h l r) := by
    intro x d h l r hx
    simp only [AvlTree.insert, ne_eq, hx.ne', not_false_eq_true, if_true]
  constructor
  · have e2 : AvlTree.insert (AvlNode.mk a) b =
        some (AvlNode.node a 2 AvlNode.nil (AvlNode.mk b), true) := by
      rw [AvlNode.mk, gt_step b a _ _ _ hab, AvlNode.avl_insert_gt_nil hab]; rfl
    have e3 : AvlTree.insert (AvlNode.node a 2 AvlNode.nil (AvlNode.mk b)) c =
        some (AvlNode.node b 2 (AvlNode.mk a) (AvlNode.mk c), true) := by
      rw [gt_step c a _ _ _ hac, AvlNode.mk,
        AvlNode.avl_insert_gt_node hac 2 AvlNode.nil (by simp), AvlNode.avl_insert_gt_nil hbc]
      rfl
    simp only [AvlTree.insertAll, AvlTree.insertFrom, s1, e2, e3, Option.some_bind]
    rfl
  · have e2 : AvlTree.insert (AvlNode.mk c) a =
        some (AvlNode.node c 2 (AvlNode.mk a) AvlNode.nil, true) := by
      rw [AvlNode.mk, lt_step a c _ _ _ hac, AvlNode.avl_insert_lt_nil hac]; rfl
    have e3 : AvlTree.insert (AvlNode.node c 2 (AvlNode.mk a) AvlNode.nil) b =
        some (AvlNode.node b 2 (AvlNode.mk a) (AvlNode.mk c), true) := by
      rw [lt_step b c _ _ _ hbc, AvlNode.mk,
        AvlNode.avl_insert_lt_node hbc 2 (by simp) AvlNode.nil, AvlNode.avl_insert_gt_nil hab]
      rfl
    simp only [AvlTree.insertAll, AvlTree.insertFrom, s1, e2, e3, Option.some_bind]
    rfl

/-- C15 at the keys 10, 20, 30. -/
theorem avl_three_keys_witness :
    (10 : Nat) < 20 ∧ (20 : Nat) < 30 ∧
    AvlTree.insertAll [10, 20, 30] =
      some (AvlNode.node 20 2 (AvlNode.node 10 1 AvlNode.nil AvlNode.nil)
        (AvlNode.node 30 1 AvlNode.nil AvlNode.nil)) ∧
    AvlTree.insertAll [30, 10, 20] =
      some (AvlNode.node 20 2 (AvlNode.node 10 1 AvlNode.nil AvlNode.nil)
        (AvlNode.node 30 1 AvlNode.nil AvlNode.nil)) :=
  ⟨by decide, by decide, avl_three_keys 10 20 30 (by decide) (by decide)⟩

/-- C19. AVL height tags are exact: in the tree built from the empty tree by
inserting `ks`, the stored height of every node is one more than the larger
stored height of its children (absent = 0), and it is the true height of the
subtree below the node. -/
theorem avl_heights_exact {α : Type} [LinearOrder α] (ks : List α) :
    ∃ t, AvlTree.insertAll ks = some t ∧ AvlNode.StoredHeightsOK t ∧
      AvlNode.HeightsExact t ∧ AvlNode.heightOf t = AvlNode.realHeight t := by
  obtain ⟨t, h1, h2, -⟩ := AvlTree.avlTree_insertAll_spec ks
  exact ⟨t, h1, AvlNode.avl_storedHeightsOK h2.2.1, h2.2.1,
    AvlNode.avl_heightOf_eq_realHeight h2.2.1⟩

/-- C20. AVL height changes by at most one per insert: on the tree `t` built
from the empty tree by inserting `ks`, `insert k` gives a tree whose height is
the height of `t` or one more, and whose number of nodes is that of `t` plus one
when the returned flag is `true`, and that of `t` when it is `false`. -/
theorem avl_insert_height_size {α : Type} [LinearOrder α] (ks : List α) (k : α) :
    ∃ t t1 b, AvlTree.insertAll ks = some t ∧ AvlTree.insert t k = some (t1, b) ∧
      (AvlNode.realHeight t1 = AvlNode.realHeight t ∨
        AvlNode.realHeight t1 = AvlNode.realHeight t + 1) ∧
      AvlNode.size t1 = AvlNode.size t + (if b then 1 else 0) := by
  obtain ⟨t, h1, h2, -⟩ := AvlTree.avlTree_insertAll_spec ks
  obtain ⟨t1, b, g1, -, -, -, g5, g6, g7, -⟩ := AvlTree.avlTree_insert_spec t k h2
  exact ⟨t, t1, b, h1, g1, by omega, g7⟩

/-- C12. Red-black search-tree order: in the tree built from the empty tree by
inserting `ks`, every node has the keys of its left subtree below its key and
the keys of its right subtree above it, so the in-order key list is strictly
increasing; `rotateLeft` and `rotateRight`, applied to a node with its pivot
child, return a tree that is ordered exactly when the tree before the rotation
is; and whenever `balance` returns a root, the whole tree below that root has
the in-order key list the whole tree had when `balance` was called. -/
theorem rb_ordered {α : Type} [LinearOrder α] :
    (∀ ks : List α, ∃ t, RedBlackTree.insertAll ks = some t ∧ RedBlackNode.Ordered t ∧
      (RedBlackNode.toList t).Pairwise (· < ·)) ∧
    (∀ (d : α) (c : Bool) (l : RedBlackNode α) (pd : α) (pc : Bool) (pl pr : RedBlackNode α),
      ∃ t1, RedBlackNode.rotateLeft
          (RedBlackNode.node d c l (RedBlackNode.node pd pc pl pr)) = some t1 ∧
        (RedBlackNode.Ordered t1 ↔
          RedBlackNode.Ordered (RedBlackNode.node d c l (RedBlackNode.node pd pc pl pr)))) ∧
    (∀ (d : α) (c : Bool) (qd : α) (qc : Bool) (ql qr r : RedBlackNode α),
      ∃ t1, RedBlackNode.rotateRight
          (RedBlackNode.node d c (RedBlackNode.node qd qc ql qr) r) = some t1 ∧
        (RedBlackNode.Ordered t1 ↔
          RedBlackNode.Ordered (RedBlackNode.node d c (RedBlackNode.node qd qc ql qr) r))) ∧
    (∀ (k : RedBlackNode α) (path : List (Frame α)),
      RedBlackNode.balance k path = none ∨
      ∃ res, RedBlackNode.balance k path = some res ∧
        RedBlackNode.toList res = RedBlackNode.toList (RedBlackNode.findRoot k path) ∧
        (RedBlackNode.Ordered res ↔ RedBlackNode.Ordered (RedBlackNode.findRoot k path))) := by
  refine ⟨fun ks => ?_, fun d c l pd pc pl pr => ?_, fun d c qd qc ql qr r => ?_,
    fun k path => ?_⟩
  · obtain ⟨t, h1, h2, -⟩ := RedBlackTree.rbTree_insertAll_spec ks
    exact ⟨t, h1, (RedBlackNode.rb_ordered_iff_pairwise t).mpr h2.1, h2.1⟩
  · obtain ⟨t1, h1, h2⟩ := RedBlackNode.rb_rotateLeft_toList d c l pd pc pl pr
    exact ⟨t1, h1, by
      rw [RedBlackNode.rb_ordered_iff_pairwise, RedBlackNode.rb_ordered_iff_pairwise, h2]⟩
  · obtain ⟨t1, h1, h2⟩ := RedBlackNode.rb_rotateRight_toList d c qd qc ql qr r
    exact ⟨t1, h1, by
      rw [RedBlackNode.rb_ordered_iff_pairwise, RedBlackNode.rb_ordered_iff_pairwise, h2]⟩
  · cases hb : RedBlackNode.balance k path with
    | none => exact Or.inl rfl
    | some res =>
      have h2 := RedBlackNode.rb_balance_toList _ path k res (le_refl _) hb
      exact Or.inr ⟨res, rfl, h2, by
        rw [RedBlackNode.rb_ordered_iff_pairwise, RedBlackNode.rb_ordered_iff_pairwise, h2]⟩

/-- C14. Red-black duplicate insert is a no-op: on the tree `t` built from the
empty tree by inserting a sequence in which `k` occurs, `RedBlackTree::insert k`
returns `false` and leaves the tree `t` as it is, and `RedBlackNode::insert k`
on the root returns the null pointer, the result of the equal-key branch, which
creates no node and calls no `balance`. -/
theorem rb_duplicate_noop {α : Type} [LinearOrder α] (ks1 : List α) (k : α) (ks2 : List α) :
    ∃ t, RedBlackTree.insertAll (ks1 ++ k :: ks2) = some t ∧
      RedBlackTree.insert t k = some (t, false) ∧
      RedBlackNode.insert k t [] = some none := by
  obtain ⟨t, h1, h2, h3⟩ := RedBlackTree.rbTree_insertAll_spec (ks1 ++ k :: ks2)
  have hk : k ∈ RedBlackNode.toList t := (h3 k).mpr (by simp)
  exact ⟨t, h1, RedBlackTree.rbTree_insert_of_mem t k h2 hk,
    RedBlackTree.rbTree_node_insert_of_mem t k h2 hk⟩

/-- C16. Red-black three-key scenario: for keys `a < b < c`, inserting `a, b, c`
into the empty tree gives the black root `b` with the red leaves `a` and `c`;
all paths from the root down hold one black node, and the two children have
the same black counts. -/
theorem rb_three_keys {α : Type} [LinearOrder α] (a b c : α) (hab : a < b) (hbc : b < c) :
    RedBlackTree.insertAll [a, b, c] =
      some (RedBlackNode.node b false (RedBlackNode.node a true RedBlackNode.nil RedBlackNode.nil)
        (RedBlackNode.node c true RedBlackNode.nil RedBlackNode.nil)) ∧
    RedBlackNode.BlackBalanced
      (RedBlackNode.node b false (RedBlackNode.node a true RedBlackNode.nil RedBlackNode.nil)
        (RedBlackNode.node c true RedBlackNode.nil RedBlackNode.nil)) ∧
    RedBlackNode.blackCounts (RedBlackNode.node a true RedBlackNode.nil RedBlackNode.nil) =
      RedBlackNode.blackCounts (RedBlackNode.node c true RedBlackNode.nil RedBlackNode.nil) := by
  have hac : a < c := lt_trans hab hbc
  refine ⟨?_, ?_, rfl⟩
  · have e1 : RedBlackTree.insert RedBlackNode.nil a = some (RedBlackNode.mk a false, true) := rfl
    have e2 : RedBlackTree.insert (RedBlackNode.mk a false) b =
        some (RedBlackNode.node a false RedBlackNode.nil (RedBlackNode.mk b true), true) := by
      simp only [RedBlackNode.mk, RedBlackTree.insert, ne_eq, hab.ne', not_false_eq_true,
        if_true, RedBlackNode.rb_insert_gt_nil hab]
      rfl
    have e3 : RedBlackTree.insert
        (RedBlackNode.node a false RedBlackNode.nil (RedBlackNode.mk b true)) c =
        some (RedBlackNode.node b false (RedBlackNode.mk a true) (RedBlackNode.mk c true),
          true) := by
      simp only [RedBlackTree.insert, ne_eq, hac.ne', not_false_eq_true, if_true]
      rw [RedBlackNode.mk, RedBlackNode.rb_insert_gt_node hac false RedBlackNode.nil (by simp),
        RedBlackNode.rb_insert_gt_nil hbc]
      rfl
    simp only [RedBlackTree.insertAll, RedBlackTree.insertFrom, e1, e2, e3, Option.some_bind]
    rfl
  · simp [RedBlackNode.BlackBalanced, RedBlackNode.blackCounts]

/-- C16 at the keys 10, 20, 30. -/
theorem rb_three_keys_witness :
    (10 : Nat) < 20 ∧ (20 : Nat) < 30 ∧
    RedBlackTree.insertAll [10, 20, 30] =
      some (RedBlackNode.node 20 false
        (RedBlackNode.node 10 true RedBlackNode.nil RedBlackNode.nil)
        (RedBlackNode.node 30 true RedBlackNode.nil RedBlackNode.nil)) ∧
    RedBlackNode.BlackBalanced
      (RedBlackNode.node 20 false
        (RedBlackNode.node 10 true RedBlackNode.nil RedBlackNode.nil)
        (RedBlackNode.node 30 true RedBlackNode.nil RedBlackNode.nil)) ∧
    RedBlackNode.blackCounts (RedBlackNode.node 10 true RedBlackNode.nil RedBlackNode.nil) =
      RedBlackNode.blackCounts (RedBlackNode.node 30 true RedBlackNode.nil RedBlackNode.nil) :=
  ⟨by decide, by decide, rb_three_keys 10 20 30 (by decide) (by decide)⟩

/-- C17, at the failing input. Inserting 10, 30, 20 gives the root 20 (black)
with the children 10 (red) and 30 (black). Inserting the negated keys
-10, -30, -20 gives the root -20 (black) with the children -30 (red) and
-10 (red), which is not the mirror image: the mirror image has a black -30.
Likewise inserting 30, 10, 20 gives the root 20 with two red children, which is
not the mirror image of the first tree under the relabelling `x ↦ 40 - x`. -/
theorem rb_mirror_fails :
    RedBlackTree.insertAll ([10, 30, 20] : List Int) =
      some (RedBlackNode.node 20 false
        (RedBlackNode.node 10 true RedBlackNode.nil RedBlackNode.nil)
        (RedBlackNode.node 30 false RedBlackNode.nil RedBlackNode.nil)) ∧
    RedBlackTree.insertAll ([-10, -30, -20] : List Int) =
      some (RedBlackNode.node (-20) false
        (RedBlackNode.node (-30) true RedBlackNode.nil RedBlackNode.nil)
        (RedBlackNode.node (-10) true RedBlackNode.nil RedBlackNode.nil)) ∧
    (RedBlackTree.insertAll ([10, 30, 20] : List Int)).map RedBlackNode.mirror =
      some (RedBlackNode.node (-20) false
        (RedBlackNode.node (-30) false RedBlackNode.nil RedBlackNode.nil)
        (RedBlackNode.node (-10) true RedBlackNode.nil RedBlackNode.nil)) ∧
    RedBlackTree.insertAll ([-10, -30, -20] : List Int) ≠
      (RedBlackTree.insertAll ([10, 30, 20] : List Int)).map RedBlackNode.mirror ∧
    RedBlackTree.insertAll ([30, 10, 20] : List Int) =
      some (RedBlackNode.node 20 false
        (RedBlackNode.node 10 true RedBlackNode.nil RedBlackNode.nil)
        (RedBlackNode.node 30 true RedBlackNode.nil RedBlackNode.nil)) ∧
    RedBlackTree.insertAll ([30, 10, 20] : List Int) ≠
      (RedBlackTree.insertAll ([10, 30, 20] : List Int)).map
        (RedBlackNode.mirrorBy fun x => 40 - x) := by
  decide

/-- C18. Red-black grandparent exists. In the embedding `balance` answers
`none` when the parent is red and has no parent, and a rotation answers `none`
when its pivot child is absent; every such answer is passed on to the caller up
to `RedBlackTree::insert`. No run of inserts from the empty tree ever gets
`none`: every insert of every run returns a tree and a flag. -/
theorem rb_grandparent_exists {α : Type} [LinearOrder α] :
    (∀ (kd : α) (kc : Bool) (kl kr : RedBlackNode α) (pd : α) (pl : Bool)
        (po : RedBlackNode α),
      RedBlackNode.balance (RedBlackNode.node kd kc kl kr) [⟨pd, true, pl, po⟩] = none) ∧
    (∀ (d : α) (c : Bool) (l : RedBlackNode α),
      RedBlackNode.rotateLeft (RedBlackNode.node d c l RedBlackNode.nil) = none) ∧
    (∀ (d : α) (c : Bool) (r : RedBlackNode α),
      RedBlackNode.rotateRight (RedBlackNode.node d c RedBlackNode.nil r) = none) ∧
    (∀ (ks : List α) (k : α), ∃ t t1 b,
      RedBlackTree.insertAll ks = some t ∧ RedBlackTree.insert t k = some (t1, b)) := by
  refine ⟨fun kd kc kl kr pd pl po => ?_, fun d c l => rfl, fun d c r => rfl, fun ks k => ?_⟩
  · exact RedBlackNode.rb_balance_no_grandparent kd kc kl kr _ rfl
  · obtain ⟨t, h1, h2, -⟩ := RedBlackTree.rbTree_insertAll_spec ks
    obtain ⟨t1, b, g1, -⟩ := RedBlackTree.rbTree_insert_spec t k h2
    exact ⟨t, t1, b, h1, g1⟩

end SearchTrees
